import Mathlib

/-!
# Avro schema translation (`rfl::avro`)

A shallow embedding of `src/src/rfl/avro/to_schema.cpp`:

* `type_to_avro_schema_type` : the recursive translator from the reflection
  type model (`parsing::schema::Type`) to the Avro schema tree (`schema::Type`);
* `transform_definitions`    : the per-definition registry construction;
* `avro_schema` / `to_json_representation` : the top-level driver.

The mutable `std::set<std::string>* _already_known` is threaded explicitly:
the translator takes `Option (Finset String)` (`none` is the null pointer) and
returns the schema together with the set as it is left after the call.
-/

namespace RflAvro

/-! ## Data model -/

/-- Modelled from the spec: the declaration of `parsing::schema::Type`
(`rfl/parsing/schema/Type.hpp`) is not part of the sources at hand.  The
variants are exactly the tags dispatched on in `type_to_avro_schema_type`, the
fields are the members the translator reads (`types_`, `type_`, `values_`,
`name_`, `value_type_`).  `Object` is an ordered list of named fields.  The
validation metadata of `Validated` and the text of `Description` are opaque to
the translator and are kept as strings; the declared size of a fixed-size array
is a natural number. -/
inductive ParsingType where
  | Boolean
  | Int32
  | Int64
  | UInt32
  | UInt64
  | Integer
  | Float
  | Double
  | String
  | AnyOf (types_ : List ParsingType)
  | Description (description_ : String) (type_ : ParsingType)
  | FixedSizeTypedArray (size_ : Nat) (type_ : ParsingType)
  | Literal (values_ : List String)
  | Object (types_ : List (String × ParsingType))
  | Optional (type_ : ParsingType)
  | Reference (name_ : String)
  | StringMap (value_type_ : ParsingType)
  | Tuple (types_ : List ParsingType)
  | TypedArray (type_ : ParsingType)
  | Validated (type_ : ParsingType) (validation_ : String)

/-- Modelled from the spec: the declaration of the Avro `schema::Type`
(`rfl/avro/schema/Type.hpp`) is not part of the sources at hand.  The variants
are the ones the translator constructs; a `Union` is the `std::vector` of
member schemas, a `Record` field is a `RecordField` (name and type), and a
default-constructed `Record` or `Enum` has the empty string as its name. -/
inductive AvroType where
  | Null
  | Boolean
  | Int
  | Long
  | Float
  | Double
  | String
  | Enum (name : String) (symbols : List String)
  | Array (items : AvroType)
  | Map (values : AvroType)
  | Record (name : String) (fields : List (String × AvroType))
  | Union (types : List AvroType)
  | Reference (type : String)

/-- Modelled from the spec: `schema::Type::with_name` is declared outside the
sources at hand.  It tags a schema with a name: records and enums carry their
declared name, every other node is returned unchanged. -/
def with_name (t : AvroType) (name : String) : AvroType :=
  match t with
  | .Record _ fields => .Record name fields
  | .Enum _ symbols => .Enum name symbols
  | other => other

/-- A `std::map<std::string, α>`, kept as the list of its entries.  The
functions below do not require the keys to be distinct; a map the C++ code can
hold satisfies `StdMap.wf`.  The order of the entries is not observable through
`find`. -/
abbrev StdMap (α : Type) := List (String × α)

/-- The keys of a map, in entry order. -/
def StdMap.keys {α : Type} (m : StdMap α) : List String := m.map Prod.fst

/-- Well-formedness of a `std::map`: no key occurs twice. -/
def StdMap.wf {α : Type} (m : StdMap α) : Prop := m.keys.Nodup

instance {α : Type} (m : StdMap α) : Decidable m.wf :=
  inferInstanceAs (Decidable m.keys.Nodup)

/-- The lookup `m.find(k)` (and `m.at(k)` where the key is present): `none`
stands for `m.end()`. -/
def StdMap.find {α : Type} (m : StdMap α) (k : String) : Option α :=
  match m with
  | [] => none
  | (k', v) :: rest => if k' = k then some v else StdMap.find rest k

/-- The assignment `m[k] = v`: overwrite the entry of `k` when present, insert
a new entry otherwise. -/
def StdMap.assign {α : Type} (m : StdMap α) (k : String) (v : α) : StdMap α :=
  match m with
  | [] => [(k, v)]
  | (k', v') :: rest =>
      if k' = k then (k', v) :: rest else (k', v') :: StdMap.assign rest k v

/-- The map with the entry of `k` removed (`m.erase(k)`); used only to state
properties. -/
def StdMap.erase {α : Type} (m : StdMap α) (k : String) : StdMap α :=
  match m with
  | [] => []
  | (k', v) :: rest =>
      if k' = k then StdMap.erase rest k else (k', v) :: StdMap.erase rest k

/-- The internal schema `parsing::schema::Definition`: a root type and the
map of named definitions. -/
structure Definition where
  root_ : ParsingType
  definitions_ : StdMap ParsingType

/-! ## The translator -/

mutual
/-- The function `type_to_avro_schema_type(_type, _definitions, _already_known)`.
The second component of the result is `_already_known` after the call. -/
def type_to_avro_schema_type (_type : ParsingType) (_definitions : StdMap AvroType)
    (_already_known : Option (Finset String)) : AvroType × Option (Finset String) :=
  match _type with
  | .Boolean => (.Boolean, _already_known)
  -- the first integer branch lists all five integer tags
  | .Int32 | .Int64 | .UInt32 | .UInt64 | .Integer => (.Int, _already_known)
  -- the second integer branch (Int64, UInt32, UInt64 to Long) is never reached
  | .Float => (.Float, _already_known)
  | .Double => (.Double, _already_known)
  | .String => (.String, _already_known)
  | .AnyOf types_ =>
      let any_of := any_of_loop types_ _definitions _already_known
      (.Union any_of.1, any_of.2)
  | .Description _ type_ =>
      type_to_avro_schema_type type_ _definitions _already_known
  | .FixedSizeTypedArray _ type_ =>
      let items := type_to_avro_schema_type type_ _definitions _already_known
      (.Array items.1, items.2)
  | .Literal values_ => (.Enum "" values_, _already_known)
  | .Object types_ =>
      let record := record_loop types_ _definitions _already_known
      (.Record "" record.1, record.2)
  | .Optional type_ =>
      let inner := type_to_avro_schema_type type_ _definitions _already_known
      (.Union [inner.1, .Null], inner.2)
  | .Reference name_ =>
      match _already_known with
      | none => (.Reference name_, none)
      | some known =>
          if name_ ∈ known then (.Reference name_, some known)
          else
            match _definitions.find name_ with
            | none => (.Reference name_, some known)
            | some entry => (entry, some (insert name_ known))
  | .StringMap value_type_ =>
      let values := type_to_avro_schema_type value_type_ _definitions _already_known
      (.Map values.1, values.2)
  | .Tuple _ => (.Record "" [], _already_known)
  | .TypedArray type_ =>
      let items := type_to_avro_schema_type type_ _definitions _already_known
      (.Array items.1, items.2)
  | .Validated type_ _ =>
      type_to_avro_schema_type type_ _definitions _already_known
/-- The loop of the `AnyOf` branch: every alternative is translated in order
and appended to the vector `any_of`. -/
def any_of_loop (types_ : List ParsingType) (_definitions : StdMap AvroType)
    (_already_known : Option (Finset String)) :
    List AvroType × Option (Finset String) :=
  match types_ with
  | [] => ([], _already_known)
  | t :: rest =>
      let head := type_to_avro_schema_type t _definitions _already_known
      let tail := any_of_loop rest _definitions head.2
      (head.1 :: tail.1, tail.2)
/-- The loop of the `Object` branch: every field `(k, v)` is translated in
order and pushed to `record.fields`. -/
def record_loop (types_ : List (String × ParsingType)) (_definitions : StdMap AvroType)
    (_already_known : Option (Finset String)) :
    List (String × AvroType) × Option (Finset String) :=
  match types_ with
  | [] => ([], _already_known)
  | (k, v) :: rest =>
      let head := type_to_avro_schema_type v _definitions _already_known
      let tail := record_loop rest _definitions head.2
      ((k, head.1) :: tail.1, tail.2)
end

/-- The function `transform_definitions`: every definition is translated
against the empty registry with a null set of known names, tagged with its
name and assigned to its key. -/
def transform_definitions (_definitions : StdMap ParsingType) : StdMap AvroType :=
  _definitions.foldl
    (fun definitions kv =>
      definitions.assign kv.1
        (with_name (type_to_avro_schema_type kv.2 [] none).1 kv.1))
    []

/-- The local `avro_schema` of `to_json_representation`: the translation of
the root against the transformed definitions, started with an empty set of
known names. -/
def avro_schema (_internal_schema : Definition) : AvroType :=
  let definitions := transform_definitions _internal_schema.definitions_
  (type_to_avro_schema_type _internal_schema.root_ definitions (some ∅)).1

/-- The function `to_json_representation`; the JSON writer `rfl::json::write`
is an external service and is taken as a parameter. -/
def to_json_representation (write : AvroType → String)
    (_internal_schema : Definition) : String :=
  write (avro_schema _internal_schema)

/-! ## Vocabulary used to state the properties -/

mutual
/-- The names of the `Reference` nodes of a type model tree that the translator
visits, in traversal order: the elements of a `Tuple` are not visited. -/
def reference_names (t : ParsingType) : List String :=
  match t with
  | .AnyOf types_ => reference_names_each types_
  | .Description _ type_ => reference_names type_
  | .FixedSizeTypedArray _ type_ => reference_names type_
  | .Object types_ => reference_names_fields types_
  | .Optional type_ => reference_names type_
  | .Reference name_ => [name_]
  | .StringMap value_type_ => reference_names value_type_
  | .TypedArray type_ => reference_names type_
  | .Validated type_ _ => reference_names type_
  | _ => []
/-- The visited reference names of a list of alternatives. -/
def reference_names_each (ts : List ParsingType) : List String :=
  match ts with
  | [] => []
  | t :: rest => reference_names t ++ reference_names_each rest
/-- The visited reference names of a list of fields. -/
def reference_names_fields (fs : List (String × ParsingType)) : List String :=
  match fs with
  | [] => []
  | (_, v) :: rest => reference_names v ++ reference_names_fields rest
end

mutual
/-- The names of all `Reference` nodes of a type model tree, in traversal
order, the elements of tuples included. -/
def all_reference_names (t : ParsingType) : List String :=
  match t with
  | .AnyOf types_ => all_reference_names_each types_
  | .Description _ type_ => all_reference_names type_
  | .FixedSizeTypedArray _ type_ => all_reference_names type_
  | .Object types_ => all_reference_names_fields types_
  | .Optional type_ => all_reference_names type_
  | .Reference name_ => [name_]
  | .StringMap value_type_ => all_reference_names value_type_
  | .Tuple types_ => all_reference_names_each types_
  | .TypedArray type_ => all_reference_names type_
  | .Validated type_ _ => all_reference_names type_
  | _ => []
/-- All reference names of a list of alternatives or tuple elements. -/
def all_reference_names_each (ts : List ParsingType) : List String :=
  match ts with
  | [] => []
  | t :: rest => all_reference_names t ++ all_reference_names_each rest
/-- All reference names of a list of fields. -/
def all_reference_names_fields (fs : List (String × ParsingType)) : List String :=
  match fs with
  | [] => []
  | (_, v) :: rest => all_reference_names v ++ all_reference_names_fields rest
end

mutual
/-- The names of the name-only `Reference` nodes of a schema tree, in
traversal order. -/
def schema_references (t : AvroType) : List String :=
  match t with
  | .Array items => schema_references items
  | .Map values => schema_references values
  | .Record _ fields => schema_references_fields fields
  | .Union types => schema_references_each types
  | .Reference type => [type]
  | _ => []
/-- The name-only references of the members of a union. -/
def schema_references_each (ts : List AvroType) : List String :=
  match ts with
  | [] => []
  | t :: rest => schema_references t ++ schema_references_each rest
/-- The name-only references of the fields of a record. -/
def schema_references_fields (fs : List (String × AvroType)) : List String :=
  match fs with
  | [] => []
  | (_, v) :: rest => schema_references v ++ schema_references_fields rest
end

mutual
/-- All nodes of a schema tree (the tree itself first), in traversal order. -/
def subtrees (t : AvroType) : List AvroType :=
  match t with
  | .Array items => .Array items :: subtrees items
  | .Map values => .Map values :: subtrees values
  | .Record name fields => .Record name fields :: subtrees_fields fields
  | .Union types => .Union types :: subtrees_each types
  | other => [other]
/-- All nodes of the members of a union. -/
def subtrees_each (ts : List AvroType) : List AvroType :=
  match ts with
  | [] => []
  | t :: rest => subtrees t ++ subtrees_each rest
/-- All nodes of the fields of a record. -/
def subtrees_fields (fs : List (String × AvroType)) : List AvroType :=
  match fs with
  | [] => []
  | (_, v) :: rest => subtrees v ++ subtrees_fields rest
end

/-- The relation between the set of known names before (`s`) and after (`s'`)
a traversal that visits the reference names `names` and produces the schema
nodes `nodes` against the registry `D`: no name is lost, every new name is a
visited reference name whose registry entry is among the produced nodes, and
every visited reference name with a registry entry is known afterwards. -/
def tracked (D : StdMap AvroType) (s s' : Finset String) (names : List String)
    (nodes : List AvroType) : Prop :=
  s ⊆ s' ∧
  (∀ n, n ∈ s' → n ∉ s → n ∈ names ∧ ∃ e, D.find n = some e ∧ e ∈ nodes) ∧
  (∀ n, n ∈ names → D.find n ≠ none → n ∈ s')

/-- Where a node of the output tree comes from: it was built by the
translation pass itself (this includes every name-only `Reference` the pass
emits), it is the registry entry substituted for a `Reference(name)` node, or
it lies below the root of such a substituted entry. -/
inductive Origin where
  | translated
  | substituted (name : String)
  | inside (name : String)
  deriving DecidableEq

mutual
/-- The nodes of the tree `type_to_avro_schema_type` returns, in traversal
order (as `subtrees` lists them), each with its origin.  The set of known
names is threaded as the translator threads it. -/
def traversal (t : ParsingType) (D : StdMap AvroType) (known : Option (Finset String)) :
    List (AvroType × Origin) :=
  match t with
  | .AnyOf types_ =>
      ((type_to_avro_schema_type (.AnyOf types_) D known).1, .translated) ::
        traversal_each types_ D known
  | .Object types_ =>
      ((type_to_avro_schema_type (.Object types_) D known).1, .translated) ::
        traversal_fields types_ D known
  | .Description _ type_ => traversal type_ D known
  | .Validated type_ _ => traversal type_ D known
  | .FixedSizeTypedArray size_ type_ =>
      ((type_to_avro_schema_type (.FixedSizeTypedArray size_ type_) D known).1, .translated) ::
        traversal type_ D known
  | .TypedArray type_ =>
      ((type_to_avro_schema_type (.TypedArray type_) D known).1, .translated) ::
        traversal type_ D known
  | .StringMap value_type_ =>
      ((type_to_avro_schema_type (.StringMap value_type_) D known).1, .translated) ::
        traversal value_type_ D known
  | .Optional type_ =>
      ((type_to_avro_schema_type (.Optional type_) D known).1, .translated) ::
        (traversal type_ D known ++ [(.Null, .translated)])
  | .Reference name_ =>
      match known with
      | none => [(.Reference name_, .translated)]
      | some s =>
          if name_ ∈ s then [(.Reference name_, .translated)]
          else
            match D.find name_ with
            | none => [(.Reference name_, .translated)]
            | some entry =>
                (entry, .substituted name_) ::
                  (subtrees entry).tail.map (fun x => (x, Origin.inside name_))
  | other => [((type_to_avro_schema_type other D known).1, .translated)]
/-- The traversal of the alternatives of an `AnyOf`. -/
def traversal_each (ts : List ParsingType) (D : StdMap AvroType)
    (known : Option (Finset String)) : List (AvroType × Origin) :=
  match ts with
  | [] => []
  | t :: rest =>
      traversal t D known ++ traversal_each rest D (type_to_avro_schema_type t D known).2
/-- The traversal of the fields of an `Object`. -/
def traversal_fields (fs : List (String × ParsingType)) (D : StdMap AvroType)
    (known : Option (Finset String)) : List (AvroType × Origin) :=
  match fs with
  | [] => []
  | (_, v) :: rest =>
      traversal v D known ++ traversal_fields rest D (type_to_avro_schema_type v D known).2
end

/-- The number of nodes of a traversal that are the substituted registry entry
of `n`. -/
def substitutions (n : String) (nodes : List (AvroType × Origin)) : Nat :=
  nodes.countP (fun p => decide (p.2 = Origin.substituted n))

/-- The relation between the set of known names before (`s`) and after (`s'`)
a traversal `nodes` that visits the reference names `names` against the
registry `D`: what `tracked` says, with the substituted entries marked as such;
a name-only `Reference(n)` emitted by the pass for a defined name `n` that was
not known at the start comes after the substituted entry of `n`; an entry is
substituted only for a name that becomes known, and at most once. -/
def traced (D : StdMap AvroType) (s s' : Finset String) (names : List String)
    (nodes : List (AvroType × Origin)) : Prop :=
  s ⊆ s' ∧
  (∀ n, n ∈ s' → n ∉ s →
    n ∈ names ∧ ∃ e, D.find n = some e ∧ (e, Origin.substituted n) ∈ nodes) ∧
  (∀ n, n ∈ names → D.find n ≠ none → n ∈ s') ∧
  (∀ n e before after, nodes = before ++ (AvroType.Reference n, Origin.translated) :: after →
    D.find n = some e → n ∈ s ∨ (e, Origin.substituted n) ∈ before) ∧
  (∀ n x, (x, Origin.substituted n) ∈ nodes → n ∈ s' ∧ n ∉ s) ∧
  (∀ n, substitutions n nodes ≤ 1)

/-! ## The decode entry point (`include/rfl/avro/read.hpp`) -/

/-- A compiled schema `Schema<T>`, as far as `read` uses it: the handle
returned by `iface()`. -/
structure Schema (Iface : Type) where
  iface : Iface

/-- The services `read` calls and that are declared outside `read.hpp`: the
functions of the Avro C library (`avro_reader_memory`, `avro_generic_value_new`,
`avro_reader_free`) and the generic walker `Parser<T, Processors<Ps...>>::read`
applied to a fresh `Reader`.  They are parameters of the model; each one is a
function of the arguments it is called with.  A byte buffer is a list of
numbers, a `Result<T>` is either an error text or a value of `T`. -/
structure Services (Handle Iface Value T : Type) where
  avro_reader_memory : List Nat → Nat → Handle
  avro_generic_value_new : Iface → Value
  avro_reader_free : Handle → Unit
  Parser_read : Value → Except String T

/-- The overload `read(const InputVarType& _obj)`: the walker is run on the
given Avro value. -/
def read_obj {Handle Iface Value T : Type} (svc : Services Handle Iface Value T)
    (_obj : Value) : Except String T :=
  svc.Parser_read _obj

/-- The overload `read(const char* _bytes, const size_t _size, const Schema<T>&
_schema)`: a memory reader is opened over the bytes, a new generic value
`root` is made from the schema, the walker is run on `root`, the reader is
freed and the result of the walker is returned. -/
def read {Handle Iface Value T : Type} (svc : Services Handle Iface Value T)
    (_bytes : List Nat) (_size : Nat) (_schema : Schema Iface) : Except String T :=
  let avro_reader := svc.avro_reader_memory _bytes _size
  let root := svc.avro_generic_value_new _schema.iface
  let result := read_obj svc root
  let _freed := svc.avro_reader_free avro_reader
  result

/-! ## Lemmas on maps -/

theorem find_assign_self {α : Type} (m : StdMap α) (k : String) (v : α) :
    (m.assign k v).find k = some v := by
  induction m with
  | nil => simp [StdMap.assign, StdMap.find]
  | cons p rest ih =>
      obtain ⟨k', v'⟩ := p
      by_cases h : k' = k <;> simp [StdMap.assign, StdMap.find, h, ih]

theorem find_assign_other {α : Type} (m : StdMap α) (k k' : String) (v : α)
    (h : k ≠ k') : (m.assign k v).find k' = m.find k' := by
  induction m with
  | nil => simp [StdMap.assign, StdMap.find, h]
  | cons p rest ih =>
      obtain ⟨k₀, v₀⟩ := p
      by_cases h₀ : k₀ = k
      · subst h₀; simp [StdMap.assign, StdMap.find, h]
      · have h' : ¬ k' = k := fun e => h e.symm
        by_cases h₁ : k₀ = k' <;> simp [StdMap.assign, StdMap.find, h₀, h₁, h', ih]

theorem find_erase_self {α : Type} (m : StdMap α) (k : String) :
    (m.erase k).find k = none := by
  induction m with
  | nil => simp [StdMap.erase, StdMap.find]
  | cons p rest ih =>
      obtain ⟨k', v'⟩ := p
      by_cases h : k' = k <;> simp [StdMap.erase, StdMap.find, h, ih]

theorem find_erase_other {α : Type} (m : StdMap α) (k k' : String)
    (h : k ≠ k') : (m.erase k).find k' = m.find k' := by
  induction m with
  | nil => simp [StdMap.erase, StdMap.find]
  | cons p rest ih =>
      obtain ⟨k₀, v₀⟩ := p
      by_cases h₀ : k₀ = k
      · subst h₀; simp [StdMap.erase, StdMap.find, h, ih]
      · have h' : ¬ k' = k := fun e => h e.symm
        by_cases h₁ : k₀ = k' <;> simp [StdMap.erase, StdMap.find, h₀, h₁, h', ih]

theorem find_eq_none_iff {α : Type} (m : StdMap α) (k : String) :
    m.find k = none ↔ k ∉ m.keys := by
  induction m with
  | nil => simp [StdMap.find, StdMap.keys]
  | cons p rest ih =>
      obtain ⟨k', v'⟩ := p
      by_cases h : k' = k
      · simp [StdMap.find, StdMap.keys, h]
      · have h' : ¬ k = k' := fun e => h e.symm
        simpa [StdMap.find, StdMap.keys, h, h'] using ih

/-! ## Lemmas on the translator -/

mutual
theorem null_known (t : ParsingType) (D : StdMap AvroType) :
    (type_to_avro_schema_type t D none).2 = none := by
  cases t with
  | AnyOf ts => simp [type_to_avro_schema_type, null_known_each ts D]
  | Object fs => simp [type_to_avro_schema_type, null_known_fields fs D]
  | Description d t => simp [type_to_avro_schema_type, null_known t D]
  | FixedSizeTypedArray n t => simp [type_to_avro_schema_type, null_known t D]
  | Optional t => simp [type_to_avro_schema_type, null_known t D]
  | StringMap t => simp [type_to_avro_schema_type, null_known t D]
  | TypedArray t => simp [type_to_avro_schema_type, null_known t D]
  | Validated t v => simp [type_to_avro_schema_type, null_known t D]
  | _ => simp [type_to_avro_schema_type]
theorem null_known_each (ts : List ParsingType) (D : StdMap AvroType) :
    (any_of_loop ts D none).2 = none := by
  cases ts with
  | nil => simp [any_of_loop]
  | cons t rest => simp [any_of_loop, null_known t D, null_known_each rest D]
theorem null_known_fields (fs : List (String × ParsingType)) (D : StdMap AvroType) :
    (record_loop fs D none).2 = none := by
  cases fs with
  | nil => simp [record_loop]
  | cons f rest =>
      obtain ⟨k, v⟩ := f
      simp [record_loop, null_known v D, null_known_fields rest D]
end

mutual
theorem flat_translation (t : ParsingType) (D : StdMap AvroType) :
    type_to_avro_schema_type t D none = type_to_avro_schema_type t [] none := by
  cases t with
  | AnyOf ts => simp [type_to_avro_schema_type, flat_translation_each ts D]
  | Object fs => simp [type_to_avro_schema_type, flat_translation_fields fs D]
  | Description d t => simp [type_to_avro_schema_type, flat_translation t D]
  | FixedSizeTypedArray n t => simp [type_to_avro_schema_type, flat_translation t D]
  | Optional t => simp [type_to_avro_schema_type, flat_translation t D]
  | StringMap t => simp [type_to_avro_schema_type, flat_translation t D]
  | TypedArray t => simp [type_to_avro_schema_type, flat_translation t D]
  | Validated t v => simp [type_to_avro_schema_type, flat_translation t D]
  | _ => simp [type_to_avro_schema_type]
theorem flat_translation_each (ts : List ParsingType) (D : StdMap AvroType) :
    any_of_loop ts D none = any_of_loop ts [] none := by
  cases ts with
  | nil => simp [any_of_loop]
  | cons t rest =>
      simp [any_of_loop, null_known, flat_translation t D, flat_translation_each rest D]
theorem flat_translation_fields (fs : List (String × ParsingType)) (D : StdMap AvroType) :
    record_loop fs D none = record_loop fs [] none := by
  cases fs with
  | nil => simp [record_loop]
  | cons f rest =>
      obtain ⟨k, v⟩ := f
      simp [record_loop, null_known, flat_translation v D, flat_translation_fields rest D]
end

mutual
theorem flat_references (t : ParsingType) (D : StdMap AvroType) :
    schema_references (type_to_avro_schema_type t D none).1 = reference_names t := by
  cases t with
  | AnyOf ts =>
      simp [type_to_avro_schema_type, schema_references, reference_names,
        flat_references_each ts D]
  | Object fs =>
      simp [type_to_avro_schema_type, schema_references, reference_names,
        flat_references_fields fs D]
  | Description d t =>
      simp [type_to_avro_schema_type, reference_names, flat_references t D]
  | FixedSizeTypedArray n t =>
      simp [type_to_avro_schema_type, schema_references, reference_names,
        flat_references t D]
  | Optional t =>
      simp [type_to_avro_schema_type, schema_references, schema_references_each,
        reference_names, flat_references t D]
  | StringMap t =>
      simp [type_to_avro_schema_type, schema_references, reference_names,
        flat_references t D]
  | TypedArray t =>
      simp [type_to_avro_schema_type, schema_references, reference_names,
        flat_references t D]
  | Validated t v =>
      simp [type_to_avro_schema_type, reference_names, flat_references t D]
  | _ =>
      simp [type_to_avro_schema_type, schema_references, schema_references_fields,
        reference_names]
theorem flat_references_each (ts : List ParsingType) (D : StdMap AvroType) :
    schema_references_each (any_of_loop ts D none).1 = reference_names_each ts := by
  cases ts with
  | nil => simp [any_of_loop, schema_references_each, reference_names_each]
  | cons t rest =>
      simp [any_of_loop, schema_references_each, reference_names_each, null_known,
        flat_references t D, flat_references_each rest D]
theorem flat_references_fields (fs : List (String × ParsingType)) (D : StdMap AvroType) :
    schema_references_fields (record_loop fs D none).1 = reference_names_fields fs := by
  cases fs with
  | nil => simp [record_loop, schema_references_fields, reference_names_fields]
  | cons f rest =>
      obtain ⟨k, v⟩ := f
      simp [record_loop, schema_references_fields, reference_names_fields, null_known,
        flat_references v D, flat_references_fields rest D]
end

theorem tracked_refl (D : StdMap AvroType) (s : Finset String) (nodes : List AvroType) :
    tracked D s s [] nodes := by
  refine ⟨Finset.Subset.refl s, ?_, ?_⟩
  · intro n hn hn'; exact absurd hn hn'
  · intro n hn; simp at hn

theorem tracked_nodes {D : StdMap AvroType} {s s' : Finset String} {names : List String}
    {nodes nodes' : List AvroType} (h : tracked D s s' names nodes)
    (hsub : ∀ e, e ∈ nodes → e ∈ nodes') : tracked D s s' names nodes' := by
  obtain ⟨h1, h2, h3⟩ := h
  refine ⟨h1, ?_, h3⟩
  intro n hn hn'
  obtain ⟨hm, e, he, hmem⟩ := h2 n hn hn'
  exact ⟨hm, e, he, hsub e hmem⟩

theorem tracked_append {D : StdMap AvroType} {s s₁ s₂ : Finset String}
    {names₁ names₂ : List String} {nodes₁ nodes₂ : List AvroType}
    (h₁ : tracked D s s₁ names₁ nodes₁) (h₂ : tracked D s₁ s₂ names₂ nodes₂) :
    tracked D s s₂ (names₁ ++ names₂) (nodes₁ ++ nodes₂) := by
  obtain ⟨a1, a2, a3⟩ := h₁
  obtain ⟨b1, b2, b3⟩ := h₂
  refine ⟨a1.trans b1, ?_, ?_⟩
  · intro n hn hn'
    by_cases hmid : n ∈ s₁
    · obtain ⟨hm, e, he, hmem⟩ := a2 n hmid hn'
      exact ⟨List.mem_append_left _ hm, e, he, List.mem_append_left _ hmem⟩
    · obtain ⟨hm, e, he, hmem⟩ := b2 n hn hmid
      exact ⟨List.mem_append_right _ hm, e, he, List.mem_append_right _ hmem⟩
  · intro n hn hkey
    rcases List.mem_append.mp hn with hl | hr
    · exact b1 (a3 n hl hkey)
    · exact b3 n hr hkey

theorem self_mem_subtrees (t : AvroType) : t ∈ subtrees t := by
  cases t <;> simp [subtrees]

mutual
theorem known_after (t : ParsingType) (D : StdMap AvroType) (s : Finset String) :
    ∃ s', (type_to_avro_schema_type t D (some s)).2 = some s' ∧
      tracked D s s' (reference_names t)
        (subtrees (type_to_avro_schema_type t D (some s)).1) := by
  cases t with
  | AnyOf ts =>
      obtain ⟨s', h, ht⟩ := known_after_each ts D s
      refine ⟨s', by simp [type_to_avro_schema_type, h], ?_⟩
      simp only [type_to_avro_schema_type, reference_names, subtrees]
      exact tracked_nodes ht (fun e he => List.mem_cons_of_mem _ he)
  | Object fs =>
      obtain ⟨s', h, ht⟩ := known_after_fields fs D s
      refine ⟨s', by simp [type_to_avro_schema_type, h], ?_⟩
      simp only [type_to_avro_schema_type, reference_names, subtrees]
      exact tracked_nodes ht (fun e he => List.mem_cons_of_mem _ he)
  | Description d t =>
      simpa [type_to_avro_schema_type, reference_names] using known_after t D s
  | Validated t v =>
      simpa [type_to_avro_schema_type, reference_names] using known_after t D s
  | FixedSizeTypedArray n t =>
      obtain ⟨s', h, ht⟩ := known_after t D s
      refine ⟨s', by simp [type_to_avro_schema_type, h], ?_⟩
      simp only [type_to_avro_schema_type, reference_names, subtrees]
      exact tracked_nodes ht (fun e he => List.mem_cons_of_mem _ he)
  | TypedArray t =>
      obtain ⟨s', h, ht⟩ := known_after t D s
      refine ⟨s', by simp [type_to_avro_schema_type, h], ?_⟩
      simp only [type_to_avro_schema_type, reference_names, subtrees]
      exact tracked_nodes ht (fun e he => List.mem_cons_of_mem _ he)
  | StringMap t =>
      obtain ⟨s', h, ht⟩ := known_after t D s
      refine ⟨s', by simp [type_to_avro_schema_type, h], ?_⟩
      simp only [type_to_avro_schema_type, reference_names, subtrees]
      exact tracked_nodes ht (fun e he => List.mem_cons_of_mem _ he)
  | Optional t =>
      obtain ⟨s', h, ht⟩ := known_after t D s
      refine ⟨s', by simp [type_to_avro_schema_type, h], ?_⟩
      simp only [type_to_avro_schema_type, reference_names, subtrees, subtrees_each]
      exact tracked_nodes ht
        (fun e he => List.mem_cons_of_mem _ (List.mem_append_left _ he))
  | Reference name =>
      by_cases hk : name ∈ s
      · refine ⟨s, by simp [type_to_avro_schema_type, hk], ?_, ?_, ?_⟩
        · exact Finset.Subset.refl s
        · intro n hn hn'; exact absurd hn hn'
        · intro n hn _
          simp only [reference_names, List.mem_singleton] at hn
          exact hn ▸ hk
      · cases hf : D.find name with
        | none =>
            refine ⟨s, by simp [type_to_avro_schema_type, hk, hf], ?_, ?_, ?_⟩
            · exact Finset.Subset.refl s
            · intro n hn hn'; exact absurd hn hn'
            · intro n hn hkey
              simp only [reference_names, List.mem_singleton] at hn
              subst hn
              exact absurd hf hkey
        | some entry =>
            refine ⟨insert name s, by simp [type_to_avro_schema_type, hk, hf], ?_, ?_, ?_⟩
            · exact Finset.subset_insert name s
            · intro n hn hn'
              have hnn : n = name := by
                rcases Finset.mem_insert.mp hn with h | h
                · exact h
                · exact absurd h hn'
              subst hnn
              refine ⟨by simp [reference_names], entry, hf, ?_⟩
              simp only [type_to_avro_schema_type, hk, hf, if_false]
              exact self_mem_subtrees entry
            · intro n hn _
              simp only [reference_names, List.mem_singleton] at hn
              subst hn
              exact Finset.mem_insert_self _ _
  | Boolean => exact ⟨s, by simp [type_to_avro_schema_type], by
      simpa [reference_names] using tracked_refl D s _⟩
  | Int32 => exact ⟨s, by simp [type_to_avro_schema_type], by
      simpa [reference_names] using tracked_refl D s _⟩
  | Int64 => exact ⟨s, by simp [type_to_avro_schema_type], by
      simpa [reference_names] using tracked_refl D s _⟩
  | UInt32 => exact ⟨s, by simp [type_to_avro_schema_type], by
      simpa [reference_names] using tracked_refl D s _⟩
  | UInt64 => exact ⟨s, by simp [type_to_avro_schema_type], by
      simpa [reference_names] using tracked_refl D s _⟩
  | Integer => exact ⟨s, by simp [type_to_avro_schema_type], by
      simpa [reference_names] using tracked_refl D s _⟩
  | Float => exact ⟨s, by simp [type_to_avro_schema_type], by
      simpa [reference_names] using tracked_refl D s _⟩
  | Double => exact ⟨s, by simp [type_to_avro_schema_type], by
      simpa [reference_names] using tracked_refl D s _⟩
  | String => exact ⟨s, by simp [type_to_avro_schema_type], by
      simpa [reference_names] using tracked_refl D s _⟩
  | Literal vs => exact ⟨s, by simp [type_to_avro_schema_type], by
      simpa [reference_names] using tracked_refl D s _⟩
  | Tuple ts => exact ⟨s, by simp [type_to_avro_schema_type], by
      simpa [reference_names] using tracked_refl D s _⟩
theorem known_after_each (ts : List ParsingType) (D : StdMap AvroType) (s : Finset String) :
    ∃ s', (any_of_loop ts D (some s)).2 = some s' ∧
      tracked D s s' (reference_names_each ts)
        (subtrees_each (any_of_loop ts D (some s)).1) := by
  cases ts with
  | nil =>
      exact ⟨s, by simp [any_of_loop], by
        simpa [reference_names_each] using tracked_refl D s _⟩
  | cons t rest =>
      obtain ⟨s₁, h₁, ht₁⟩ := known_after t D s
      obtain ⟨s₂, h₂, ht₂⟩ := known_after_each rest D s₁
      refine ⟨s₂, by simp [any_of_loop, h₁, h₂], ?_⟩
      simp only [any_of_loop, reference_names_each, subtrees_each, h₁]
      exact tracked_append ht₁ ht₂
theorem known_after_fields (fs : List (String × ParsingType)) (D : StdMap AvroType)
    (s : Finset String) :
    ∃ s', (record_loop fs D (some s)).2 = some s' ∧
      tracked D s s' (reference_names_fields fs)
        (subtrees_fields (record_loop fs D (some s)).1) := by
  cases fs with
  | nil =>
      exact ⟨s, by simp [record_loop], by
        simpa [reference_names_fields] using tracked_refl D s _⟩
  | cons f rest =>
      obtain ⟨k, v⟩ := f
      obtain ⟨s₁, h₁, ht₁⟩ := known_after v D s
      obtain ⟨s₂, h₂, ht₂⟩ := known_after_fields rest D s₁
      refine ⟨s₂, by simp [record_loop, h₁, h₂], ?_⟩
      simp only [record_loop, reference_names_fields, subtrees_fields, h₁]
      exact tracked_append ht₁ ht₂
end

mutual
theorem known_name_erased (t : ParsingType) (D : StdMap AvroType) (s : Finset String)
    (name : String) (h : name ∈ s) :
    type_to_avro_schema_type t D (some s) =
      type_to_avro_schema_type t (D.erase name) (some s) := by
  cases t with
  | AnyOf ts => simp [type_to_avro_schema_type, known_name_erased_each ts D s name h]
  | Object fs => simp [type_to_avro_schema_type, known_name_erased_fields fs D s name h]
  | Description d t => simp [type_to_avro_schema_type, known_name_erased t D s name h]
  | FixedSizeTypedArray n t =>
      simp [type_to_avro_schema_type, known_name_erased t D s name h]
  | Optional t => simp [type_to_avro_schema_type, known_name_erased t D s name h]
  | StringMap t => simp [type_to_avro_schema_type, known_name_erased t D s name h]
  | TypedArray t => simp [type_to_avro_schema_type, known_name_erased t D s name h]
  | Validated t v => simp [type_to_avro_schema_type, known_name_erased t D s name h]
  | Reference r =>
      by_cases hr : r ∈ s
      · simp [type_to_avro_schema_type, hr]
      · have hne : name ≠ r := fun e => hr (e ▸ h)
        simp [type_to_avro_schema_type, hr, find_erase_other D name r hne]
  | _ => simp [type_to_avro_schema_type]
theorem known_name_erased_each (ts : List ParsingType) (D : StdMap AvroType)
    (s : Finset String) (name : String) (h : name ∈ s) :
    any_of_loop ts D (some s) = any_of_loop ts (D.erase name) (some s) := by
  cases ts with
  | nil => simp [any_of_loop]
  | cons t rest =>
      obtain ⟨s₁, h₁, ht₁⟩ := known_after t (D.erase name) s
      have hrest := known_name_erased_each rest D s₁ name (ht₁.1 h)
      simp [any_of_loop, known_name_erased t D s name h, h₁, hrest]
theorem known_name_erased_fields (fs : List (String × ParsingType)) (D : StdMap AvroType)
    (s : Finset String) (name : String) (h : name ∈ s) :
    record_loop fs D (some s) = record_loop fs (D.erase name) (some s) := by
  cases fs with
  | nil => simp [record_loop]
  | cons f rest =>
      obtain ⟨k, v⟩ := f
      obtain ⟨s₁, h₁, ht₁⟩ := known_after v (D.erase name) s
      have hrest := known_name_erased_fields rest D s₁ name (ht₁.1 h)
      simp [record_loop, known_name_erased v D s name h, h₁, hrest]
end

/-! ## Lemmas on the registry construction -/

theorem assign_fresh {α : Type} (m : StdMap α) (k : String) (v : α)
    (h : k ∉ m.keys) : m.assign k v = m ++ [(k, v)] := by
  induction m with
  | nil => simp [StdMap.assign]
  | cons p rest ih =>
      obtain ⟨k', v'⟩ := p
      have hk : ¬ k' = k := by
        intro e; apply h; simp [StdMap.keys, e]
      have hrest : k ∉ StdMap.keys rest := by
        intro hm; apply h; simp only [StdMap.keys, List.map_cons, List.mem_cons]
        exact Or.inr hm
      simp [StdMap.assign, hk, ih hrest]

theorem transform_definitions_loop (f : String → ParsingType → AvroType)
    (defs : StdMap ParsingType) (acc : StdMap AvroType)
    (hnodup : defs.keys.Nodup) (hdisj : ∀ k, k ∈ defs.keys → k ∉ acc.keys) :
    defs.foldl (fun definitions kv => definitions.assign kv.1 (f kv.1 kv.2)) acc =
      acc ++ defs.map (fun kv => (kv.1, f kv.1 kv.2)) := by
  induction defs generalizing acc with
  | nil => simp
  | cons p rest ih =>
      obtain ⟨k, v⟩ := p
      have hk : k ∉ acc.keys := hdisj k (by simp [StdMap.keys])
      have hn : (StdMap.keys rest).Nodup := by
        simp only [StdMap.keys, List.map_cons, List.nodup_cons] at hnodup
        exact hnodup.2
      have hkrest : k ∉ StdMap.keys rest := by
        simp only [StdMap.keys, List.map_cons, List.nodup_cons] at hnodup
        exact hnodup.1
      have hd : ∀ k', k' ∈ StdMap.keys rest → k' ∉ StdMap.keys (acc ++ [(k, f k v)]) := by
        intro k' hk' hmem
        simp only [StdMap.keys, List.map_append, List.map_cons, List.map_nil,
          List.mem_append, List.mem_singleton] at hmem
        rcases hmem with hm | hm
        · exact hdisj k' (by
            simp only [StdMap.keys, List.map_cons, List.mem_cons]
            exact Or.inr hk') hm
        · exact hkrest (hm ▸ hk')
      simp only [List.foldl_cons, List.map_cons]
      rw [assign_fresh acc k (f k v) hk, ih (acc ++ [(k, f k v)]) hn hd]
      simp

theorem transform_definitions_eq_map (defs : StdMap ParsingType) (hwf : defs.wf) :
    transform_definitions defs =
      defs.map (fun kv => (kv.1, with_name (type_to_avro_schema_type kv.2 [] none).1 kv.1)) := by
  have h := transform_definitions_loop
    (fun k v => with_name (type_to_avro_schema_type v [] none).1 k) defs [] hwf
    (by intro k _; simp [StdMap.keys])
  simpa [transform_definitions] using h

theorem find_map_entries {α β : Type} (f : String → α → β) (m : StdMap α) (k : String) :
    StdMap.find (m.map (fun kv => (kv.1, f kv.1 kv.2))) k = (m.find k).map (f k) := by
  induction m with
  | nil => simp [StdMap.find]
  | cons p rest ih =>
      obtain ⟨k', v'⟩ := p
      by_cases h : k' = k
      · subst h; simp [StdMap.find]
      · simp [StdMap.find, h, ih]

theorem find_transform_definitions (defs : StdMap ParsingType) (hwf : defs.wf)
    (k : String) :
    (transform_definitions defs).find k =
      (defs.find k).map
        (fun v => with_name (type_to_avro_schema_type v [] none).1 k) := by
  rw [transform_definitions_eq_map defs hwf]
  exact find_map_entries
    (fun k v => with_name (type_to_avro_schema_type v [] none).1 k) defs k

theorem schema_references_with_name (t : AvroType) (name : String) :
    schema_references (with_name t name) = schema_references t := by
  cases t <;> simp [with_name, schema_references]

theorem keys_map_entries {α β : Type} (f : String → α → β) (m : StdMap α) :
    StdMap.keys (m.map (fun kv => (kv.1, f kv.1 kv.2))) = m.keys := by
  induction m with
  | nil => simp [StdMap.keys]
  | cons p rest ih =>
      simp only [StdMap.keys, List.map_cons, List.map_map] at ih ⊢
      simp [ih]

theorem assign_length {α : Type} (m : StdMap α) (k : String) (v : α) :
    (m.assign k v).length ≤ m.length + 1 := by
  induction m with
  | nil => simp [StdMap.assign]
  | cons p rest ih =>
      obtain ⟨k', v'⟩ := p
      by_cases h : k' = k
      · simp [StdMap.assign, h]
      · simpa [StdMap.assign, h] using ih

theorem assign_loop_length (f : String → ParsingType → AvroType)
    (defs : StdMap ParsingType) (acc : StdMap AvroType) :
    (defs.foldl (fun definitions kv => definitions.assign kv.1 (f kv.1 kv.2)) acc).length ≤
      acc.length + defs.length := by
  induction defs generalizing acc with
  | nil => simp
  | cons p rest ih =>
      have h₁ := ih (acc.assign p.1 (f p.1 p.2))
      have h₂ := assign_length acc p.1 (f p.1 p.2)
      simp only [List.foldl_cons, List.length_cons]
      omega

theorem transform_definitions_length (defs : StdMap ParsingType) :
    (transform_definitions defs).length ≤ defs.length := by
  have h := assign_loop_length
    (fun k v => with_name (type_to_avro_schema_type v [] none).1 k) defs []
  simpa [transform_definitions] using h

theorem origin_lift {D : StdMap AvroType} {n : String} {names : List String}
    {nodes nodes' : List AvroType}
    (h : n ∈ names ∨ ∃ m e, D.find m = some e ∧ e ∈ nodes ∧ n ∈ schema_references e)
    (hsub : ∀ e, e ∈ nodes → e ∈ nodes') :
    n ∈ names ∨ ∃ m e, D.find m = some e ∧ e ∈ nodes' ∧ n ∈ schema_references e := by
  rcases h with h | ⟨m, e, hf, hmem, hr⟩
  · exact Or.inl h
  · exact Or.inr ⟨m, e, hf, hsub e hmem, hr⟩

mutual
theorem references_origin (t : ParsingType) (D : StdMap AvroType) (s : Finset String)
    (n : String)
    (hn : n ∈ schema_references (type_to_avro_schema_type t D (some s)).1) :
    n ∈ reference_names t ∨
      ∃ m e, D.find m = some e ∧
        e ∈ subtrees (type_to_avro_schema_type t D (some s)).1 ∧
        n ∈ schema_references e := by
  cases t with
  | AnyOf ts =>
      simp only [type_to_avro_schema_type, schema_references] at hn
      simp only [type_to_avro_schema_type, reference_names, subtrees]
      exact origin_lift (references_origin_each ts D s n hn)
        (fun e he => List.mem_cons_of_mem _ he)
  | Object fs =>
      simp only [type_to_avro_schema_type, schema_references] at hn
      simp only [type_to_avro_schema_type, reference_names, subtrees]
      exact origin_lift (references_origin_fields fs D s n hn)
        (fun e he => List.mem_cons_of_mem _ he)
  | Description d t =>
      simp only [type_to_avro_schema_type] at hn
      simpa only [type_to_avro_schema_type, reference_names] using
        references_origin t D s n hn
  | Validated t v =>
      simp only [type_to_avro_schema_type] at hn
      simpa only [type_to_avro_schema_type, reference_names] using
        references_origin t D s n hn
  | FixedSizeTypedArray k t =>
      simp only [type_to_avro_schema_type, schema_references] at hn
      simp only [type_to_avro_schema_type, reference_names, subtrees]
      exact origin_lift (references_origin t D s n hn)
        (fun e he => List.mem_cons_of_mem _ he)
  | TypedArray t =>
      simp only [type_to_avro_schema_type, schema_references] at hn
      simp only [type_to_avro_schema_type, reference_names, subtrees]
      exact origin_lift (references_origin t D s n hn)
        (fun e he => List.mem_cons_of_mem _ he)
  | StringMap t =>
      simp only [type_to_avro_schema_type, schema_references] at hn
      simp only [type_to_avro_schema_type, reference_names, subtrees]
      exact origin_lift (references_origin t D s n hn)
        (fun e he => List.mem_cons_of_mem _ he)
  | Optional t =>
      simp only [type_to_avro_schema_type, schema_references, schema_references_each,
        List.append_nil] at hn
      simp only [type_to_avro_schema_type, reference_names, subtrees, subtrees_each]
      exact origin_lift (references_origin t D s n hn)
        (fun e he => List.mem_cons_of_mem _ (List.mem_append_left _ he))
  | Reference name =>
      by_cases hk : name ∈ s
      · simp only [type_to_avro_schema_type, hk, if_true, schema_references] at hn
        exact Or.inl (by simpa [reference_names] using hn)
      · cases hf : D.find name with
        | none =>
            simp only [type_to_avro_schema_type, hk, hf, if_false, schema_references] at hn
            exact Or.inl (by simpa [reference_names] using hn)
        | some entry =>
            simp only [type_to_avro_schema_type, hk, hf, if_false] at hn
            refine Or.inr ⟨name, entry, hf, ?_, hn⟩
            simp only [type_to_avro_schema_type, hk, hf, if_false]
            exact self_mem_subtrees entry
  | Boolean => simp [type_to_avro_schema_type, schema_references] at hn
  | Int32 => simp [type_to_avro_schema_type, schema_references] at hn
  | Int64 => simp [type_to_avro_schema_type, schema_references] at hn
  | UInt32 => simp [type_to_avro_schema_type, schema_references] at hn
  | UInt64 => simp [type_to_avro_schema_type, schema_references] at hn
  | Integer => simp [type_to_avro_schema_type, schema_references] at hn
  | Float => simp [type_to_avro_schema_type, schema_references] at hn
  | Double => simp [type_to_avro_schema_type, schema_references] at hn
  | String => simp [type_to_avro_schema_type, schema_references] at hn
  | Literal vs => simp [type_to_avro_schema_type, schema_references] at hn
  | Tuple ts =>
      simp [type_to_avro_schema_type, schema_references, schema_references_fields] at hn
theorem references_origin_each (ts : List ParsingType) (D : StdMap AvroType)
    (s : Finset String) (n : String)
    (hn : n ∈ schema_references_each (any_of_loop ts D (some s)).1) :
    n ∈ reference_names_each ts ∨
      ∃ m e, D.find m = some e ∧
        e ∈ subtrees_each (any_of_loop ts D (some s)).1 ∧
        n ∈ schema_references e := by
  cases ts with
  | nil => simp [any_of_loop, schema_references_each] at hn
  | cons t rest =>
      obtain ⟨s₁, h₁, _⟩ := known_after t D s
      simp only [any_of_loop, h₁, schema_references_each, List.mem_append] at hn
      simp only [any_of_loop, h₁, reference_names_each, subtrees_each, List.mem_append]
      rcases hn with hn | hn
      · rcases references_origin t D s n hn with h | ⟨m, e, hf, hmem, hr⟩
        · exact Or.inl (Or.inl h)
        · exact Or.inr ⟨m, e, hf, Or.inl hmem, hr⟩
      · rcases references_origin_each rest D s₁ n hn with h | ⟨m, e, hf, hmem, hr⟩
        · exact Or.inl (Or.inr h)
        · exact Or.inr ⟨m, e, hf, Or.inr hmem, hr⟩
theorem references_origin_fields (fs : List (String × ParsingType)) (D : StdMap AvroType)
    (s : Finset String) (n : String)
    (hn : n ∈ schema_references_fields (record_loop fs D (some s)).1) :
    n ∈ reference_names_fields fs ∨
      ∃ m e, D.find m = some e ∧
        e ∈ subtrees_fields (record_loop fs D (some s)).1 ∧
        n ∈ schema_references e := by
  cases fs with
  | nil => simp [record_loop, schema_references_fields] at hn
  | cons f rest =>
      obtain ⟨k, v⟩ := f
      obtain ⟨s₁, h₁, _⟩ := known_after v D s
      simp only [record_loop, h₁, schema_references_fields, List.mem_append] at hn
      simp only [record_loop, h₁, reference_names_fields, subtrees_fields, List.mem_append]
      rcases hn with hn | hn
      · rcases references_origin v D s n hn with h | ⟨m, e, hf, hmem, hr⟩
        · exact Or.inl (Or.inl h)
        · exact Or.inr ⟨m, e, hf, Or.inl hmem, hr⟩
      · rcases references_origin_fields rest D s₁ n hn with h | ⟨m, e, hf, hmem, hr⟩
        · exact Or.inl (Or.inr h)
        · exact Or.inr ⟨m, e, hf, Or.inr hmem, hr⟩
end

/-! ## Lemmas on the loops -/

theorem record_loop_append (pre post : List (String × ParsingType)) (D : StdMap AvroType)
    (seen : Option (Finset String)) :
    record_loop (pre ++ post) D seen =
      ((record_loop pre D seen).1 ++ (record_loop post D (record_loop pre D seen).2).1,
       (record_loop post D (record_loop pre D seen).2).2) := by
  induction pre generalizing seen with
  | nil => simp [record_loop]
  | cons f rest ih =>
      obtain ⟨k, v⟩ := f
      simp [record_loop, ih]

theorem any_of_loop_append (pre post : List ParsingType) (D : StdMap AvroType)
    (seen : Option (Finset String)) :
    any_of_loop (pre ++ post) D seen =
      ((any_of_loop pre D seen).1 ++ (any_of_loop post D (any_of_loop pre D seen).2).1,
       (any_of_loop post D (any_of_loop pre D seen).2).2) := by
  induction pre generalizing seen with
  | nil => simp [any_of_loop]
  | cons t rest ih => simp [any_of_loop, ih]

theorem record_loop_names (fs : List (String × ParsingType)) (D : StdMap AvroType)
    (seen : Option (Finset String)) :
    (record_loop fs D seen).1.map Prod.fst = fs.map Prod.fst := by
  induction fs generalizing seen with
  | nil => simp [record_loop]
  | cons f rest ih =>
      obtain ⟨k, v⟩ := f
      simp [record_loop, ih]

theorem record_loop_length (fs : List (String × ParsingType)) (D : StdMap AvroType)
    (seen : Option (Finset String)) :
    (record_loop fs D seen).1.length = fs.length := by
  have h := congrArg List.length (record_loop_names fs D seen)
  simpa using h

theorem any_of_loop_length (ts : List ParsingType) (D : StdMap AvroType)
    (seen : Option (Finset String)) :
    (any_of_loop ts D seen).1.length = ts.length := by
  induction ts generalizing seen with
  | nil => simp [any_of_loop]
  | cons t rest ih => simp [any_of_loop, ih]

theorem any_of_loop_flat (ts : List ParsingType) :
    (any_of_loop ts [] none).1 =
      ts.map (fun t => (type_to_avro_schema_type t [] none).1) := by
  induction ts with
  | nil => simp [any_of_loop]
  | cons t rest ih => simp [any_of_loop, null_known, ih]

mutual
theorem reference_free (t : ParsingType) (D : StdMap AvroType)
    (seen : Option (Finset String)) (h : reference_names t = []) :
    type_to_avro_schema_type t D seen = ((type_to_avro_schema_type t [] none).1, seen) := by
  cases t with
  | AnyOf ts =>
      simp only [reference_names] at h
      simp [type_to_avro_schema_type, reference_free_each ts D seen h]
  | Object fs =>
      simp only [reference_names] at h
      simp [type_to_avro_schema_type, reference_free_fields fs D seen h]
  | Description d t =>
      simp only [reference_names] at h
      simp [type_to_avro_schema_type, reference_free t D seen h]
  | Validated t v =>
      simp only [reference_names] at h
      simp [type_to_avro_schema_type, reference_free t D seen h]
  | FixedSizeTypedArray n t =>
      simp only [reference_names] at h
      simp [type_to_avro_schema_type, reference_free t D seen h]
  | TypedArray t =>
      simp only [reference_names] at h
      simp [type_to_avro_schema_type, reference_free t D seen h]
  | StringMap t =>
      simp only [reference_names] at h
      simp [type_to_avro_schema_type, reference_free t D seen h]
  | Optional t =>
      simp only [reference_names] at h
      simp [type_to_avro_schema_type, reference_free t D seen h]
  | Reference name => simp [reference_names] at h
  | _ => simp [type_to_avro_schema_type]
theorem reference_free_each (ts : List ParsingType) (D : StdMap AvroType)
    (seen : Option (Finset String)) (h : reference_names_each ts = []) :
    any_of_loop ts D seen = ((any_of_loop ts [] none).1, seen) := by
  cases ts with
  | nil => simp [any_of_loop]
  | cons t rest =>
      simp only [reference_names_each, List.append_eq_nil] at h
      simp [any_of_loop, null_known, reference_free t D seen h.1,
        reference_free_each rest D seen h.2]
theorem reference_free_fields (fs : List (String × ParsingType)) (D : StdMap AvroType)
    (seen : Option (Finset String)) (h : reference_names_fields fs = []) :
    record_loop fs D seen = ((record_loop fs [] none).1, seen) := by
  cases fs with
  | nil => simp [record_loop]
  | cons f rest =>
      obtain ⟨k, v⟩ := f
      simp only [reference_names_fields, List.append_eq_nil] at h
      simp [record_loop, null_known, reference_free v D seen h.1,
        reference_free_fields rest D seen h.2]
end

theorem reference_names_mem_each (ts : List ParsingType) (t : ParsingType)
    (ht : t ∈ ts) (n : String) (hn : n ∈ reference_names t) :
    n ∈ reference_names_each ts := by
  induction ts with
  | nil => simp at ht
  | cons a rest ih =>
      simp only [reference_names_each, List.mem_append]
      rcases List.mem_cons.mp ht with h | h
      · exact Or.inl (h ▸ hn)
      · exact Or.inr (ih h)

/-! ## Lemmas on the traversal with origins -/

theorem subtrees_eq_cons (e : AvroType) : subtrees e = e :: (subtrees e).tail := by
  cases e <;> simp [subtrees]

theorem substitutions_inside (n m : String) (l : List AvroType) :
    substitutions n (l.map (fun x => (x, Origin.inside m))) = 0 := by
  induction l with
  | nil => simp [substitutions]
  | cons a rest ih =>
      simp only [substitutions, List.map_cons, List.countP_cons] at ih ⊢
      simp [ih]

theorem substitutions_append (n : String) (p₁ p₂ : List (AvroType × Origin)) :
    substitutions n (p₁ ++ p₂) = substitutions n p₁ + substitutions n p₂ := by
  simp [substitutions, List.countP_append]

theorem substitutions_pos (n : String) (p : List (AvroType × Origin))
    (h : 0 < substitutions n p) : ∃ x, (x, Origin.substituted n) ∈ p := by
  induction p with
  | nil => simp [substitutions] at h
  | cons a rest ih =>
      obtain ⟨x, o⟩ := a
      by_cases ho : o = Origin.substituted n
      · exact ⟨x, by simp [ho]⟩
      · have h' : 0 < substitutions n rest := by
          simpa [substitutions, List.countP_cons, ho] using h
        obtain ⟨y, hy⟩ := ih h'
        exact ⟨y, List.mem_cons_of_mem _ hy⟩

theorem substitutions_mem (n : String) (p : List (AvroType × Origin)) (x : AvroType)
    (h : (x, Origin.substituted n) ∈ p) : 0 < substitutions n p := by
  induction p with
  | nil => simp at h
  | cons a rest ih =>
      rcases List.mem_cons.mp h with h | h
      · subst h; simp [substitutions, List.countP_cons]
      · have := ih h
        simp only [substitutions, List.countP_cons] at this ⊢
        omega

theorem traced_nil (D : StdMap AvroType) (s : Finset String) : traced D s s [] [] := by
  refine ⟨Finset.Subset.refl s, ?_, ?_, ?_, ?_, ?_⟩
  · intro n hn hn'; exact absurd hn hn'
  · intro n hn; simp at hn
  · intro n e before after hsplit; simp at hsplit
  · intro n x hmem; simp at hmem
  · intro n; simp [substitutions]

theorem traced_cons {D : StdMap AvroType} {s s' : Finset String} {names : List String}
    {nodes : List (AvroType × Origin)} (x : AvroType)
    (h : traced D s s' names nodes) (hx : ∀ n, x ≠ AvroType.Reference n) :
    traced D s s' names ((x, Origin.translated) :: nodes) := by
  obtain ⟨a1, a2, a3, a4, a5, a6⟩ := h
  refine ⟨a1, ?_, a3, ?_, ?_, ?_⟩
  · intro n hn hn'
    obtain ⟨hm, e, he, hmem⟩ := a2 n hn hn'
    exact ⟨hm, e, he, List.mem_cons_of_mem _ hmem⟩
  · intro n e before after hsplit hf
    cases before with
    | nil =>
        simp only [List.nil_append, List.cons.injEq, Prod.mk.injEq] at hsplit
        exact absurd hsplit.1.1 (hx n)
    | cons b bs =>
        simp only [List.cons_append, List.cons.injEq] at hsplit
        rcases a4 n e bs after hsplit.2 hf with h | h
        · exact Or.inl h
        · exact Or.inr (List.mem_cons_of_mem _ h)
  · intro n y hmem
    rcases List.mem_cons.mp hmem with h | h
    · simp at h
    · exact a5 n y h
  · intro n
    have := a6 n
    simpa [substitutions, List.countP_cons] using this

theorem traced_append {D : StdMap AvroType} {s s₁ s₂ : Finset String}
    {names₁ names₂ : List String} {p₁ p₂ : List (AvroType × Origin)}
    (h₁ : traced D s s₁ names₁ p₁) (h₂ : traced D s₁ s₂ names₂ p₂) :
    traced D s s₂ (names₁ ++ names₂) (p₁ ++ p₂) := by
  obtain ⟨a1, a2, a3, a4, a5, a6⟩ := h₁
  obtain ⟨b1, b2, b3, b4, b5, b6⟩ := h₂
  have hmid : ∀ n e, D.find n = some e → n ∈ s₁ →
      n ∈ s ∨ (e, Origin.substituted n) ∈ p₁ := by
    intro n e hf hn
    by_cases hs : n ∈ s
    · exact Or.inl hs
    · obtain ⟨_, e', he', hmem⟩ := a2 n hn hs
      rw [hf] at he'
      simp only [Option.some.injEq] at he'
      exact Or.inr (he' ▸ hmem)
  refine ⟨a1.trans b1, ?_, ?_, ?_, ?_, ?_⟩
  · intro n hn hn'
    by_cases hm : n ∈ s₁
    · obtain ⟨hname, e, he, hmem⟩ := a2 n hm hn'
      exact ⟨List.mem_append_left _ hname, e, he, List.mem_append_left _ hmem⟩
    · obtain ⟨hname, e, he, hmem⟩ := b2 n hn hm
      exact ⟨List.mem_append_right _ hname, e, he, List.mem_append_right _ hmem⟩
  · intro n hn hkey
    rcases List.mem_append.mp hn with hl | hr
    · exact b1 (a3 n hl hkey)
    · exact b3 n hr hkey
  · intro n e before after hsplit hf
    rcases List.append_eq_append_iff.mp hsplit with ⟨a', hb, hp2⟩ | ⟨c', hp1, hr⟩
    · subst hb
      rcases b4 n e a' after hp2 hf with h | h
      · rcases hmid n e hf h with h' | h'
        · exact Or.inl h'
        · exact Or.inr (List.mem_append_left _ h')
      · exact Or.inr (List.mem_append_right _ h)
    · cases c' with
      | nil =>
          simp only [List.nil_append, List.append_nil] at hp1 hr
          subst hp1
          rcases b4 n e [] after (by simpa using hr.symm) hf with h | h
          · exact hmid n e hf h
          · simp at h
      | cons c cs =>
          simp only [List.cons_append, List.cons.injEq] at hr
          obtain ⟨hc, _⟩ := hr
          subst hc
          exact a4 n e before cs hp1 hf
  · intro n x hmem
    rcases List.mem_append.mp hmem with h | h
    · obtain ⟨h1, h2⟩ := a5 n x h
      exact ⟨b1 h1, h2⟩
    · obtain ⟨h1, h2⟩ := b5 n x h
      exact ⟨h1, fun hs => h2 (a1 hs)⟩
  · intro n
    rw [substitutions_append]
    have ha := a6 n
    have hb := b6 n
    by_cases hpos₁ : 0 < substitutions n p₁
    · by_cases hpos₂ : 0 < substitutions n p₂
      · obtain ⟨x, hx⟩ := substitutions_pos n p₁ hpos₁
        obtain ⟨y, hy⟩ := substitutions_pos n p₂ hpos₂
        exact absurd (a5 n x hx).1 (b5 n y hy).2
      · omega
    · omega

mutual
theorem traversal_nodes (t : ParsingType) (D : StdMap AvroType)
    (known : Option (Finset String)) :
    (traversal t D known).map Prod.fst = subtrees (type_to_avro_schema_type t D known).1 := by
  cases t with
  | AnyOf ts =>
      simp [traversal, type_to_avro_schema_type, subtrees, traversal_nodes_each ts D known]
  | Object fs =>
      simp [traversal, type_to_avro_schema_type, subtrees, traversal_nodes_fields fs D known]
  | Description d t =>
      simp [traversal, type_to_avro_schema_type, traversal_nodes t D known]
  | Validated t v =>
      simp [traversal, type_to_avro_schema_type, traversal_nodes t D known]
  | FixedSizeTypedArray n t =>
      simp [traversal, type_to_avro_schema_type, subtrees, traversal_nodes t D known]
  | TypedArray t =>
      simp [traversal, type_to_avro_schema_type, subtrees, traversal_nodes t D known]
  | StringMap t =>
      simp [traversal, type_to_avro_schema_type, subtrees, traversal_nodes t D known]
  | Optional t =>
      simp [traversal, type_to_avro_schema_type, subtrees, subtrees_each,
        traversal_nodes t D known]
  | Reference name =>
      cases known with
      | none => simp [traversal, type_to_avro_schema_type, subtrees]
      | some s =>
          by_cases hk : name ∈ s
          · simp [traversal, type_to_avro_schema_type, subtrees, hk]
          · cases hf : D.find name with
            | none => simp [traversal, type_to_avro_schema_type, subtrees, hk, hf]
            | some entry =>
                simp only [traversal, type_to_avro_schema_type, hk, hf, if_false,
                  List.map_cons, List.map_map]
                rw [subtrees_eq_cons entry]
                simp [Function.comp_def]
  | _ => simp [traversal, type_to_avro_schema_type, subtrees, subtrees_fields]
theorem traversal_nodes_each (ts : List ParsingType) (D : StdMap AvroType)
    (known : Option (Finset String)) :
    (traversal_each ts D known).map Prod.fst = subtrees_each (any_of_loop ts D known).1 := by
  cases ts with
  | nil => simp [traversal_each, any_of_loop, subtrees_each]
  | cons t rest =>
      simp [traversal_each, any_of_loop, subtrees_each, traversal_nodes t D known,
        traversal_nodes_each rest D (type_to_avro_schema_type t D known).2]
theorem traversal_nodes_fields (fs : List (String × ParsingType)) (D : StdMap AvroType)
    (known : Option (Finset String)) :
    (traversal_fields fs D known).map Prod.fst =
      subtrees_fields (record_loop fs D known).1 := by
  cases fs with
  | nil => simp [traversal_fields, record_loop, subtrees_fields]
  | cons f rest =>
      obtain ⟨k, v⟩ := f
      simp [traversal_fields, record_loop, subtrees_fields, traversal_nodes v D known,
        traversal_nodes_fields rest D (type_to_avro_schema_type v D known).2]
end

mutual
theorem traversal_traced (t : ParsingType) (D : StdMap AvroType) (s : Finset String) :
    ∃ s', (type_to_avro_schema_type t D (some s)).2 = some s' ∧
      traced D s s' (reference_names t) (traversal t D (some s)) := by
  cases t with
  | AnyOf ts =>
      obtain ⟨s', h, ht⟩ := traversal_traced_each ts D s
      refine ⟨s', by simp [type_to_avro_schema_type, h], ?_⟩
      simp only [traversal, reference_names]
      exact traced_cons _ ht (fun n => by simp [type_to_avro_schema_type])
  | Object fs =>
      obtain ⟨s', h, ht⟩ := traversal_traced_fields fs D s
      refine ⟨s', by simp [type_to_avro_schema_type, h], ?_⟩
      simp only [traversal, reference_names]
      exact traced_cons _ ht (fun n => by simp [type_to_avro_schema_type])
  | Description d t =>
      simpa [type_to_avro_schema_type, traversal, reference_names] using
        traversal_traced t D s
  | Validated t v =>
      simpa [type_to_avro_schema_type, traversal, reference_names] using
        traversal_traced t D s
  | FixedSizeTypedArray n t =>
      obtain ⟨s', h, ht⟩ := traversal_traced t D s
      refine ⟨s', by simp [type_to_avro_schema_type, h], ?_⟩
      simp only [traversal, reference_names]
      exact traced_cons _ ht (fun n => by simp [type_to_avro_schema_type])
  | TypedArray t =>
      obtain ⟨s', h, ht⟩ := traversal_traced t D s
      refine ⟨s', by simp [type_to_avro_schema_type, h], ?_⟩
      simp only [traversal, reference_names]
      exact traced_cons _ ht (fun n => by simp [type_to_avro_schema_type])
  | StringMap t =>
      obtain ⟨s', h, ht⟩ := traversal_traced t D s
      refine ⟨s', by simp [type_to_avro_schema_type, h], ?_⟩
      simp only [traversal, reference_names]
      exact traced_cons _ ht (fun n => by simp [type_to_avro_schema_type])
  | Optional t =>
      obtain ⟨s', h, ht⟩ := traversal_traced t D s
      refine ⟨s', by simp [type_to_avro_schema_type, h], ?_⟩
      simp only [traversal, reference_names]
      have hnull := traced_cons (D := D) AvroType.Null (traced_nil D s') (fun n => by simp)
      have happ := traced_append ht hnull
      simp only [List.append_nil] at happ
      exact traced_cons _ happ (fun n => by simp [type_to_avro_schema_type])
  | Reference name =>
      by_cases hk : name ∈ s
      · refine ⟨s, by simp [type_to_avro_schema_type, hk], ?_⟩
        simp only [traversal, reference_names, hk, if_true]
        refine ⟨Finset.Subset.refl s, ?_, ?_, ?_, ?_, ?_⟩
        · intro n hn hn'; exact absurd hn hn'
        · intro n hn _
          simp only [List.mem_singleton] at hn
          exact hn ▸ hk
        · intro n e before after hsplit _
          cases before with
          | nil =>
              simp only [List.nil_append, List.cons.injEq, Prod.mk.injEq,
                AvroType.Reference.injEq] at hsplit
              exact Or.inl (hsplit.1.1 ▸ hk)
          | cons b bs => simp at hsplit
        · intro n x hmem; simp at hmem
        · intro n; simp [substitutions]
      · cases hf : D.find name with
        | none =>
            refine ⟨s, by simp [type_to_avro_schema_type, hk, hf], ?_⟩
            simp only [traversal, reference_names, hk, hf, if_false]
            refine ⟨Finset.Subset.refl s, ?_, ?_, ?_, ?_, ?_⟩
            · intro n hn hn'; exact absurd hn hn'
            · intro n hn hkey
              simp only [List.mem_singleton] at hn
              subst hn
              exact absurd hf hkey
            · intro n e before after hsplit hfn
              cases before with
              | nil =>
                  simp only [List.nil_append, List.cons.injEq, Prod.mk.injEq,
                    AvroType.Reference.injEq] at hsplit
                  rw [← hsplit.1.1, hf] at hfn
                  simp at hfn
              | cons b bs => simp at hsplit
            · intro n x hmem; simp at hmem
            · intro n; simp [substitutions]
        | some entry =>
            refine ⟨insert name s, by simp [type_to_avro_schema_type, hk, hf], ?_⟩
            simp only [traversal, reference_names, hk, hf, if_false]
            refine ⟨Finset.subset_insert name s, ?_, ?_, ?_, ?_, ?_⟩
            · intro n hn hn'
              have hnn : n = name := by
                rcases Finset.mem_insert.mp hn with h | h
                · exact h
                · exact absurd h hn'
              subst hnn
              exact ⟨by simp, entry, hf, by simp⟩
            · intro n hn _
              simp only [List.mem_singleton] at hn
              subst hn
              exact Finset.mem_insert_self _ _
            · intro n e before after hsplit _
              have hm : (AvroType.Reference n, Origin.translated) ∈
                  (entry, Origin.substituted name) ::
                    (subtrees entry).tail.map (fun x => (x, Origin.inside name)) := by
                rw [hsplit]; simp
              rcases List.mem_cons.mp hm with h | h
              · simp at h
              · obtain ⟨a, _, ha⟩ := List.mem_map.mp h
                simp at ha
            · intro n x hmem
              rcases List.mem_cons.mp hmem with h | h
              · simp only [Prod.mk.injEq, Origin.substituted.injEq] at h
                rw [h.2]
                exact ⟨Finset.mem_insert_self _ _, hk⟩
              · obtain ⟨a, _, ha⟩ := List.mem_map.mp h
                simp at ha
            · intro n
              have h0 := substitutions_inside n name (subtrees entry).tail
              simp only [substitutions, List.countP_cons] at h0 ⊢
              rw [h0]
              split <;> omega
  | Boolean =>
      exact ⟨s, by simp [type_to_avro_schema_type], by
        simpa [traversal, type_to_avro_schema_type, reference_names] using
          traced_cons (D := D) _ (traced_nil D s) (fun n => by simp)⟩
  | Int32 =>
      exact ⟨s, by simp [type_to_avro_schema_type], by
        simpa [traversal, type_to_avro_schema_type, reference_names] using
          traced_cons (D := D) _ (traced_nil D s) (fun n => by simp)⟩
  | Int64 =>
      exact ⟨s, by simp [type_to_avro_schema_type], by
        simpa [traversal, type_to_avro_schema_type, reference_names] using
          traced_cons (D := D) _ (traced_nil D s) (fun n => by simp)⟩
  | UInt32 =>
      exact ⟨s, by simp [type_to_avro_schema_type], by
        simpa [traversal, type_to_avro_schema_type, reference_names] using
          traced_cons (D := D) _ (traced_nil D s) (fun n => by simp)⟩
  | UInt64 =>
      exact ⟨s, by simp [type_to_avro_schema_type], by
        simpa [traversal, type_to_avro_schema_type, reference_names] using
          traced_cons (D := D) _ (traced_nil D s) (fun n => by simp)⟩
  | Integer =>
      exact ⟨s, by simp [type_to_avro_schema_type], by
        simpa [traversal, type_to_avro_schema_type, reference_names] using
          traced_cons (D := D) _ (traced_nil D s) (fun n => by simp)⟩
  | Float =>
      exact ⟨s, by simp [type_to_avro_schema_type], by
        simpa [traversal, type_to_avro_schema_type, reference_names] using
          traced_cons (D := D) _ (traced_nil D s) (fun n => by simp)⟩
  | Double =>
      exact ⟨s, by simp [type_to_avro_schema_type], by
        simpa [traversal, type_to_avro_schema_type, reference_names] using
          traced_cons (D := D) _ (traced_nil D s) (fun n => by simp)⟩
  | String =>
      exact ⟨s, by simp [type_to_avro_schema_type], by
        simpa [traversal, type_to_avro_schema_type, reference_names] using
          traced_cons (D := D) _ (traced_nil D s) (fun n => by simp)⟩
  | Literal vs =>
      exact ⟨s, by simp [type_to_avro_schema_type], by
        simpa [traversal, type_to_avro_schema_type, reference_names] using
          traced_cons (D := D) _ (traced_nil D s) (fun n => by simp)⟩
  | Tuple ts =>
      exact ⟨s, by simp [type_to_avro_schema_type], by
        simpa [traversal, type_to_avro_schema_type, reference_names] using
          traced_cons (D := D) _ (traced_nil D s) (fun n => by simp)⟩
theorem traversal_traced_each (ts : List ParsingType) (D : StdMap AvroType)
    (s : Finset String) :
    ∃ s', (any_of_loop ts D (some s)).2 = some s' ∧
      traced D s s' (reference_names_each ts) (traversal_each ts D (some s)) := by
  cases ts with
  | nil =>
      exact ⟨s, by simp [any_of_loop], by
        simpa [reference_names_each, traversal_each] using traced_nil D s⟩
  | cons t rest =>
      obtain ⟨s₁, h₁, ht₁⟩ := traversal_traced t D s
      obtain ⟨s₂, h₂, ht₂⟩ := traversal_traced_each rest D s₁
      refine ⟨s₂, by simp [any_of_loop, h₁, h₂], ?_⟩
      simp only [traversal_each, reference_names_each, h₁]
      exact traced_append ht₁ ht₂
theorem traversal_traced_fields (fs : List (String × ParsingType)) (D : StdMap AvroType)
    (s : Finset String) :
    ∃ s', (record_loop fs D (some s)).2 = some s' ∧
      traced D s s' (reference_names_fields fs) (traversal_fields fs D (some s)) := by
  cases fs with
  | nil =>
      exact ⟨s, by simp [record_loop], by
        simpa [reference_names_fields, traversal_fields] using traced_nil D s⟩
  | cons f rest =>
      obtain ⟨k, v⟩ := f
      obtain ⟨s₁, h₁, ht₁⟩ := traversal_traced v D s
      obtain ⟨s₂, h₂, ht₂⟩ := traversal_traced_fields rest D s₁
      refine ⟨s₂, by simp [record_loop, h₁, h₂], ?_⟩
      simp only [traversal_fields, reference_names_fields, h₁]
      exact traced_append ht₁ ht₂
end

mutual
theorem traversal_marks (t : ParsingType) (D : StdMap AvroType)
    (known : Option (Finset String)) :
    ∀ p, p ∈ traversal t D known → ∀ m,
      (p.2 = Origin.substituted m ∨ p.2 = Origin.inside m) →
      ∃ e, D.find m = some e ∧ p.1 ∈ subtrees e := by
  cases t with
  | AnyOf ts =>
      intro p hp m ho
      simp only [traversal] at hp
      rcases List.mem_cons.mp hp with h | h
      · subst h; simp at ho
      · exact traversal_marks_each ts D known p h m ho
  | Object fs =>
      intro p hp m ho
      simp only [traversal] at hp
      rcases List.mem_cons.mp hp with h | h
      · subst h; simp at ho
      · exact traversal_marks_fields fs D known p h m ho
  | Description d t =>
      simpa only [traversal] using traversal_marks t D known
  | Validated t v =>
      simpa only [traversal] using traversal_marks t D known
  | FixedSizeTypedArray k t =>
      intro p hp m ho
      simp only [traversal] at hp
      rcases List.mem_cons.mp hp with h | h
      · subst h; simp at ho
      · exact traversal_marks t D known p h m ho
  | TypedArray t =>
      intro p hp m ho
      simp only [traversal] at hp
      rcases List.mem_cons.mp hp with h | h
      · subst h; simp at ho
      · exact traversal_marks t D known p h m ho
  | StringMap t =>
      intro p hp m ho
      simp only [traversal] at hp
      rcases List.mem_cons.mp hp with h | h
      · subst h; simp at ho
      · exact traversal_marks t D known p h m ho
  | Optional t =>
      intro p hp m ho
      simp only [traversal] at hp
      rcases List.mem_cons.mp hp with h | h
      · subst h; simp at ho
      · rcases List.mem_append.mp h with h | h
        · exact traversal_marks t D known p h m ho
        · simp only [List.mem_singleton] at h
          subst h; simp at ho
  | Reference name =>
      intro p hp m ho
      cases known with
      | none =>
          simp only [traversal, List.mem_singleton] at hp
          subst hp; simp at ho
      | some s =>
          by_cases hk : name ∈ s
          · simp only [traversal, hk, if_true, List.mem_singleton] at hp
            subst hp; simp at ho
          · cases hf : D.find name with
            | none =>
                simp only [traversal, hk, hf, if_false, List.mem_singleton] at hp
                subst hp; simp at ho
            | some entry =>
                simp only [traversal, hk, hf, if_false] at hp
                rcases List.mem_cons.mp hp with h | h
                · subst h
                  simp only [Origin.substituted.injEq, reduceCtorEq, or_false] at ho
                  subst ho
                  exact ⟨entry, hf, self_mem_subtrees entry⟩
                · obtain ⟨a, ha, hpa⟩ := List.mem_map.mp h
                  subst hpa
                  simp only [reduceCtorEq, Origin.inside.injEq, false_or] at ho
                  subst ho
                  exact ⟨entry, hf, List.mem_of_mem_tail ha⟩
  | Boolean =>
      intro p hp m ho
      simp only [traversal, List.mem_singleton] at hp
      subst hp
      simp at ho
  | Int32 =>
      intro p hp m ho
      simp only [traversal, List.mem_singleton] at hp
      subst hp
      simp at ho
  | Int64 =>
      intro p hp m ho
      simp only [traversal, List.mem_singleton] at hp
      subst hp
      simp at ho
  | UInt32 =>
      intro p hp m ho
      simp only [traversal, List.mem_singleton] at hp
      subst hp
      simp at ho
  | UInt64 =>
      intro p hp m ho
      simp only [traversal, List.mem_singleton] at hp
      subst hp
      simp at ho
  | Integer =>
      intro p hp m ho
      simp only [traversal, List.mem_singleton] at hp
      subst hp
      simp at ho
  | Float =>
      intro p hp m ho
      simp only [traversal, List.mem_singleton] at hp
      subst hp
      simp at ho
  | Double =>
      intro p hp m ho
      simp only [traversal, List.mem_singleton] at hp
      subst hp
      simp at ho
  | String =>
      intro p hp m ho
      simp only [traversal, List.mem_singleton] at hp
      subst hp
      simp at ho
  | Literal vs =>
      intro p hp m ho
      simp only [traversal, List.mem_singleton] at hp
      subst hp
      simp at ho
  | Tuple ts =>
      intro p hp m ho
      simp only [traversal, List.mem_singleton] at hp
      subst hp
      simp at ho
theorem traversal_marks_each (ts : List ParsingType) (D : StdMap AvroType)
    (known : Option (Finset String)) :
    ∀ p, p ∈ traversal_each ts D known → ∀ m,
      (p.2 = Origin.substituted m ∨ p.2 = Origin.inside m) →
      ∃ e, D.find m = some e ∧ p.1 ∈ subtrees e := by
  cases ts with
  | nil => intro p hp; simp [traversal_each] at hp
  | cons t rest =>
      intro p hp m ho
      simp only [traversal_each] at hp
      rcases List.mem_append.mp hp with h | h
      · exact traversal_marks t D known p h m ho
      · exact traversal_marks_each rest D _ p h m ho
theorem traversal_marks_fields (fs : List (String × ParsingType)) (D : StdMap AvroType)
    (known : Option (Finset String)) :
    ∀ p, p ∈ traversal_fields fs D known → ∀ m,
      (p.2 = Origin.substituted m ∨ p.2 = Origin.inside m) →
      ∃ e, D.find m = some e ∧ p.1 ∈ subtrees e := by
  cases fs with
  | nil => intro p hp; simp [traversal_fields] at hp
  | cons f rest =>
      obtain ⟨k, v⟩ := f
      intro p hp m ho
      simp only [traversal_fields] at hp
      rcases List.mem_append.mp hp with h | h
      · exact traversal_marks v D known p h m ho
      · exact traversal_marks_fields rest D _ p h m ho
end

mutual
theorem reference_in_subtrees (e : AvroType) (n : String)
    (h : AvroType.Reference n ∈ subtrees e) : n ∈ schema_references e := by
  cases e with
  | Array items =>
      simp only [subtrees, List.mem_cons, reduceCtorEq, false_or] at h
      simpa only [schema_references] using reference_in_subtrees items n h
  | Map values =>
      simp only [subtrees, List.mem_cons, reduceCtorEq, false_or] at h
      simpa only [schema_references] using reference_in_subtrees values n h
  | Record name fields =>
      simp only [subtrees, List.mem_cons, reduceCtorEq, false_or] at h
      simpa only [schema_references] using reference_in_subtrees_fields fields n h
  | Union types =>
      simp only [subtrees, List.mem_cons, reduceCtorEq, false_or] at h
      simpa only [schema_references] using reference_in_subtrees_each types n h
  | Reference type =>
      simp only [subtrees, List.mem_singleton, AvroType.Reference.injEq] at h
      simp [schema_references, h]
  | _ => simp [subtrees] at h
theorem reference_in_subtrees_each (ts : List AvroType) (n : String)
    (h : AvroType.Reference n ∈ subtrees_each ts) : n ∈ schema_references_each ts := by
  cases ts with
  | nil => simp [subtrees_each] at h
  | cons t rest =>
      simp only [subtrees_each, List.mem_append] at h
      simp only [schema_references_each, List.mem_append]
      rcases h with h | h
      · exact Or.inl (reference_in_subtrees t n h)
      · exact Or.inr (reference_in_subtrees_each rest n h)
theorem reference_in_subtrees_fields (fs : List (String × AvroType)) (n : String)
    (h : AvroType.Reference n ∈ subtrees_fields fs) : n ∈ schema_references_fields fs := by
  cases fs with
  | nil => simp [subtrees_fields] at h
  | cons f rest =>
      obtain ⟨k, v⟩ := f
      simp only [subtrees_fields, List.mem_append] at h
      simp only [schema_references_fields, List.mem_append]
      rcases h with h | h
      · exact Or.inl (reference_in_subtrees v n h)
      · exact Or.inr (reference_in_subtrees_fields rest n h)
end

/-! ## The claims -/

/-- C1. Reference resolution with a non-null set of known names: translating
`Reference(name)` returns the registry entry of `name` as it stands and adds
`name` to the set exactly when `name` is not yet known and is a key of the
registry; in every other case it returns the name-only node `Reference(name)`
and leaves the set unchanged. -/
theorem reference_resolution (name : String) (definitions : StdMap AvroType)
    (seen : Finset String) :
    (name ∉ seen ∧ name ∈ definitions.keys →
      ∃ entry, definitions.find name = some entry ∧
        type_to_avro_schema_type (.Reference name) definitions (some seen) =
          (entry, some (insert name seen))) ∧
    (¬ (name ∉ seen ∧ name ∈ definitions.keys) →
      type_to_avro_schema_type (.Reference name) definitions (some seen) =
        (.Reference name, some seen)) := by
  constructor
  · rintro ⟨hseen, hkey⟩
    cases hf : definitions.find name with
    | none => exact absurd hkey ((find_eq_none_iff definitions name).mp hf)
    | some entry => exact ⟨entry, rfl, by simp [type_to_avro_schema_type, hseen, hf]⟩
  · intro h
    by_cases hseen : name ∈ seen
    · simp [type_to_avro_schema_type, hseen]
    · have hkey : name ∉ definitions.keys := fun hk => h ⟨hseen, hk⟩
      have hf := (find_eq_none_iff definitions name).mpr hkey
      simp [type_to_avro_schema_type, hseen, hf]

/-- Witness of C1: with the registry `X ↦ Long`, the first `Reference(X)` is
replaced by the entry and `X` becomes known. -/
theorem reference_resolution_witness :
    ("X" ∉ (∅ : Finset String) ∧ "X" ∈ StdMap.keys [("X", AvroType.Long)]) ∧
    ∃ entry, StdMap.find [("X", AvroType.Long)] "X" = some entry ∧
      type_to_avro_schema_type (.Reference "X") [("X", AvroType.Long)] (some ∅) =
        (entry, some (insert "X" ∅)) :=
  have h : "X" ∉ (∅ : Finset String) ∧ "X" ∈ StdMap.keys [("X", AvroType.Long)] :=
    ⟨by simp, by simp [StdMap.keys]⟩
  ⟨h, (reference_resolution "X" [("X", AvroType.Long)] ∅).1 h⟩

/-- C3. Self-referential record through the top-level driver.  For the
definitions `A ↦ Object[next : Optional(Reference(A))]` and the root
`Reference(A)` the driver computes the record named `A` with the single field
`next : Union[Reference(A), Null]`.  In general, for a root `Reference(n)` with
`n` a key of the definitions map, the driver computes the registry entry of
`n`: the translation of the body of `n` in isolation, tagged with `n`; that
translation does not depend on any registry, and its name-only references are
exactly the references the body visits. -/
theorem self_reference_driver :
    avro_schema
        ⟨.Reference "A", [("A", .Object [("next", .Optional (.Reference "A"))])]⟩ =
      .Record "A" [("next", .Union [.Reference "A", .Null])] ∧
    ∀ (definitions : StdMap ParsingType) (n : String) (body : ParsingType),
      definitions.wf → definitions.find n = some body →
      avro_schema ⟨.Reference n, definitions⟩ =
          with_name (type_to_avro_schema_type body [] none).1 n ∧
        (transform_definitions definitions).find n =
          some (avro_schema ⟨.Reference n, definitions⟩) ∧
        (∀ D, type_to_avro_schema_type body D none =
          type_to_avro_schema_type body [] none) ∧
        schema_references (avro_schema ⟨.Reference n, definitions⟩) =
          reference_names body := by
  have general : ∀ (definitions : StdMap ParsingType) (n : String) (body : ParsingType),
      definitions.wf → definitions.find n = some body →
      avro_schema ⟨.Reference n, definitions⟩ =
        with_name (type_to_avro_schema_type body [] none).1 n := by
    intro definitions n body hwf hfind
    have h := find_transform_definitions definitions hwf n
    rw [hfind] at h
    simp only [Option.map_some'] at h
    simp [avro_schema, type_to_avro_schema_type, h]
  refine ⟨?_, ?_⟩
  · rw [general _ "A" (.Object [("next", .Optional (.Reference "A"))])
      (by simp [StdMap.wf, StdMap.keys]) (by simp [StdMap.find])]
    simp [type_to_avro_schema_type, record_loop, with_name]
  · intro definitions n body hwf hfind
    refine ⟨general definitions n body hwf hfind, ?_, fun D => flat_translation body D, ?_⟩
    · rw [general definitions n body hwf hfind,
        find_transform_definitions definitions hwf n, hfind]
      rfl
    · rw [general definitions n body hwf hfind, schema_references_with_name,
        flat_references]

/-- Witness of C3: the general part at two mutually referential definitions,
`A ↦ Object[b : Reference(B)]` and `B ↦ Object[a : Reference(A)]`, root
`Reference(B)`. -/
theorem self_reference_driver_witness :
    avro_schema ⟨.Reference "B",
        [("A", .Object [("b", .Reference "B")]), ("B", .Object [("a", .Reference "A")])]⟩ =
      with_name (type_to_avro_schema_type (.Object [("a", .Reference "A")]) [] none).1 "B" :=
  (self_reference_driver.2
    [("A", .Object [("b", .Reference "B")]), ("B", .Object [("a", .Reference "A")])]
    "B" (.Object [("a", .Reference "A")])
    (by simp [StdMap.wf, StdMap.keys]) (by simp [StdMap.find])).1

/-- C4. Reuse in sibling fields: for a name `X` with a registry entry, the
object with the two fields `a` and `b`, both `Reference(X)`, translated with an
empty set of known names, is the record whose field `a` holds the registry
entry of `X` and whose field `b` holds the name-only node `Reference(X)`. -/
theorem sibling_fields_reuse (definitions : StdMap AvroType) (X a b : String)
    (entry : AvroType) (h : definitions.find X = some entry) :
    type_to_avro_schema_type (.Object [(a, .Reference X), (b, .Reference X)])
        definitions (some ∅) =
      (.Record "" [(a, entry), (b, .Reference X)], some {X}) := by
  simp [type_to_avro_schema_type, record_loop, h]

/-- Witness of C4: the registry `X ↦ Record X []` and the fields `left`,
`right`. -/
theorem sibling_fields_reuse_witness :
    StdMap.find [("X", AvroType.Record "X" [])] "X" = some (AvroType.Record "X" []) ∧
    type_to_avro_schema_type (.Object [("left", .Reference "X"), ("right", .Reference "X")])
        [("X", AvroType.Record "X" [])] (some ∅) =
      (.Record "" [("left", .Record "X" []), ("right", .Reference "X")], some {"X"}) :=
  ⟨by simp [StdMap.find],
   sibling_fields_reuse [("X", AvroType.Record "X" [])] "X" "left" "right"
     (AvroType.Record "X" []) (by simp [StdMap.find])⟩

/-- C5, as stated, fails on tuples: the type `Tuple[Reference(X)]` has the
`Reference` node `X`, and its translation with a null set of known names is the
record without fields, in which no `Reference` node appears. -/
theorem flat_mode_tuple_counterexample :
    all_reference_names (.Tuple [.Reference "X"]) = ["X"] ∧
    type_to_avro_schema_type (.Tuple [.Reference "X"]) [("X", AvroType.Long)] none =
      (.Record "" [], none) ∧
    schema_references
      (type_to_avro_schema_type (.Tuple [.Reference "X"]) [("X", AvroType.Long)] none).1 =
      [] := by
  refine ⟨?_, ?_, ?_⟩
  · simp [all_reference_names, all_reference_names_each]
  · simp [type_to_avro_schema_type]
  · simp [type_to_avro_schema_type, schema_references, schema_references_fields]

/-- C5, amended.  Flat mode: with a null set of known names the translator
never replaces a reference by a registry entry, whatever the registry holds:
the result is the one obtained with the empty registry, the set stays null, and
the name-only references of the output are exactly the `Reference` nodes of the
input outside any `Tuple`, in traversal order.  Hence every entry produced by
`transform_definitions` is such a flat translation, tagged with its key. -/
theorem flat_mode (t : ParsingType) (D : StdMap AvroType) :
    type_to_avro_schema_type t D none = type_to_avro_schema_type t [] none ∧
    (type_to_avro_schema_type t D none).2 = none ∧
    schema_references (type_to_avro_schema_type t D none).1 = reference_names t ∧
    (∀ (definitions : StdMap ParsingType) (k : String) (entry : AvroType),
      definitions.wf → (transform_definitions definitions).find k = some entry →
      ∃ v, definitions.find k = some v ∧
        entry = with_name (type_to_avro_schema_type v D none).1 k ∧
        schema_references entry = reference_names v) := by
  refine ⟨flat_translation t D, null_known t D, flat_references t D, ?_⟩
  intro definitions k entry hwf hentry
  rw [find_transform_definitions definitions hwf k] at hentry
  cases hv : definitions.find k with
  | none => simp [hv] at hentry
  | some v =>
      simp only [hv, Option.map_some', Option.some.injEq] at hentry
      refine ⟨v, rfl, ?_, ?_⟩
      · rw [flat_translation v D]; exact hentry.symm
      · rw [← hentry, schema_references_with_name, flat_references]

/-- Witness of C5 (amended): the entry built for `A ↦ Optional(Reference(B))`
next to a definition of `B`. -/
theorem flat_mode_witness :
    ∃ v, StdMap.find [("A", ParsingType.Optional (.Reference "B")), ("B", .Int32)] "A" =
        some v ∧
      AvroType.Union [.Reference "B", .Null] =
        with_name (type_to_avro_schema_type v [("B", AvroType.Int)] none).1 "A" ∧
      schema_references (AvroType.Union [.Reference "B", .Null]) = reference_names v :=
  (flat_mode .Boolean [("B", AvroType.Int)]).2.2.2
    [("A", .Optional (.Reference "B")), ("B", .Int32)] "A"
    (.Union [.Reference "B", .Null])
    (by simp [StdMap.wf, StdMap.keys])
    (by simp [transform_definitions, StdMap.assign, StdMap.find,
          type_to_avro_schema_type, with_name])

/-- C6, as stated, fails: for the definitions `A ↦ Object[b : Reference(B)]`,
`B ↦ Object[x : Int32]` and the root `Reference(A)`, the driver computes
`Record A [b : Reference(B)]`; the name-only `Reference(B)` occurs in it, `B`
is a key of the definitions map, and the registry entry of `B` occurs nowhere
in the tree. -/
theorem declared_once_counterexample :
    avro_schema ⟨.Reference "A",
        [("A", .Object [("b", .Reference "B")]), ("B", .Object [("x", .Int32)])]⟩ =
      .Record "A" [("b", .Reference "B")] ∧
    "B" ∈ schema_references (avro_schema ⟨.Reference "A",
        [("A", .Object [("b", .Reference "B")]), ("B", .Object [("x", .Int32)])]⟩) ∧
    StdMap.find (transform_definitions
        [("A", .Object [("b", .Reference "B")]), ("B", .Object [("x", .Int32)])]) "B" =
      some (.Record "B" [("x", .Int)]) ∧
    AvroType.Record "B" [("x", .Int)] ∉ subtrees (avro_schema ⟨.Reference "A",
        [("A", .Object [("b", .Reference "B")]), ("B", .Object [("x", .Int32)])]⟩) := by
  have h : avro_schema ⟨.Reference "A",
        [("A", .Object [("b", .Reference "B")]), ("B", .Object [("x", .Int32)])]⟩ =
      .Record "A" [("b", .Reference "B")] := by
    simp [avro_schema, transform_definitions, StdMap.assign, StdMap.find,
      type_to_avro_schema_type, record_loop, with_name]
  refine ⟨h, ?_, ?_, ?_⟩
  · rw [h]; simp [schema_references, schema_references_fields]
  · simp [transform_definitions, StdMap.assign, StdMap.find,
      type_to_avro_schema_type, record_loop, with_name]
  · rw [h]; simp [subtrees, subtrees_fields]

/-- C6, amended.  For every source schema with a well-formed definitions map
and every name `n` that is a key of it, in the tree the driver computes (its
nodes taken in traversal order, each with its origin):
* if the root type has a `Reference(n)` node (outside any `Tuple`), then the
  registry entry of `n` occurs in the tree, substituted exactly once;
* the registry entry of `n` is never substituted more than once;
* every name-only `Reference(n)` that the translation of the root type itself
  emits comes after the substituted registry entry of `n` in traversal order;
* every other node of the tree is a node of the substituted registry entry of
  some defined name `m`: a name-only `Reference(n)` among those sits in the
  entry of a definition `m` whose body references `n`; entries are substituted
  as built, so such a reference is not expanded and need not come after (or
  with) an entry of `n`. -/
theorem declared_once (s : Definition) (n : String) (body : ParsingType)
    (hwf : s.definitions_.wf) (hkey : s.definitions_.find n = some body) :
    (transform_definitions s.definitions_).find n =
        some (with_name (type_to_avro_schema_type body [] none).1 n) ∧
    (n ∈ reference_names s.root_ →
      with_name (type_to_avro_schema_type body [] none).1 n ∈ subtrees (avro_schema s)) ∧
    (n ∈ schema_references (avro_schema s) →
      with_name (type_to_avro_schema_type body [] none).1 n ∈ subtrees (avro_schema s) ∨
      ∃ m body_m, s.definitions_.find m = some body_m ∧
        with_name (type_to_avro_schema_type body_m [] none).1 m ∈
          subtrees (avro_schema s) ∧
        n ∈ reference_names body_m) ∧
    (traversal s.root_ (transform_definitions s.definitions_) (some ∅)).map Prod.fst =
      subtrees (avro_schema s) ∧
    (∀ before after,
      traversal s.root_ (transform_definitions s.definitions_) (some ∅) =
        before ++ (AvroType.Reference n, Origin.translated) :: after →
      (with_name (type_to_avro_schema_type body [] none).1 n, Origin.substituted n) ∈
        before) ∧
    substitutions n
      (traversal s.root_ (transform_definitions s.definitions_) (some ∅)) ≤ 1 ∧
    (n ∈ reference_names s.root_ →
      (with_name (type_to_avro_schema_type body [] none).1 n, Origin.substituted n) ∈
        traversal s.root_ (transform_definitions s.definitions_) (some ∅) ∧
      substitutions n
        (traversal s.root_ (transform_definitions s.definitions_) (some ∅)) = 1) ∧
    (∀ x m,
      (x, Origin.substituted m) ∈
          traversal s.root_ (transform_definitions s.definitions_) (some ∅) ∨
        (x, Origin.inside m) ∈
          traversal s.root_ (transform_definitions s.definitions_) (some ∅) →
      ∃ body_m, s.definitions_.find m = some body_m ∧
        x ∈ subtrees (with_name (type_to_avro_schema_type body_m [] none).1 m) ∧
        (x = AvroType.Reference n → n ∈ reference_names body_m)) := by
  have hentry := find_transform_definitions s.definitions_ hwf n
  rw [hkey] at hentry
  simp only [Option.map_some'] at hentry
  have hroot : n ∈ reference_names s.root_ →
      with_name (type_to_avro_schema_type body [] none).1 n ∈ subtrees (avro_schema s) := by
    intro href
    obtain ⟨seen', _, _, hnew, hall⟩ :=
      known_after s.root_ (transform_definitions s.definitions_) ∅
    have hk : n ∈ seen' := hall n href (by simp [hentry])
    obtain ⟨_, e, he, hmem⟩ := hnew n hk (by simp)
    rw [hentry] at he
    simp only [Option.some.injEq] at he
    rw [he]
    exact hmem
  obtain ⟨seen', _, _, tnew, tall, torder, _, tonce⟩ :=
    traversal_traced s.root_ (transform_definitions s.definitions_) ∅
  refine ⟨hentry, hroot, ?_, ?_, ?_, tonce n, ?_, ?_⟩
  · intro hout
    rcases references_origin s.root_ (transform_definitions s.definitions_) ∅ n hout with
      href | ⟨m, e, hf, hmem, hr⟩
    · exact Or.inl (hroot href)
    · right
      rw [find_transform_definitions s.definitions_ hwf m] at hf
      cases hm : s.definitions_.find m with
      | none => simp [hm] at hf
      | some body_m =>
          simp only [hm, Option.map_some', Option.some.injEq] at hf
          refine ⟨m, body_m, hm, ?_, ?_⟩
          · rw [hf]; exact hmem
          · rw [← hf, schema_references_with_name, flat_references] at hr
            exact hr
  · exact traversal_nodes s.root_ (transform_definitions s.definitions_) (some ∅)
  · intro before after hsplit
    rcases torder n _ before after hsplit hentry with h | h
    · simp at h
    · exact h
  · intro href
    have hk : n ∈ seen' := tall n href (by simp [hentry])
    obtain ⟨_, e, he, hmem⟩ := tnew n hk (by simp)
    rw [hentry] at he
    simp only [Option.some.injEq] at he
    rw [he]
    refine ⟨hmem, ?_⟩
    have hpos := substitutions_mem n _ e hmem
    have hle := tonce n
    omega
  · intro x m hx
    have hmark : ∃ e, (transform_definitions s.definitions_).find m = some e ∧
        x ∈ subtrees e := by
      rcases hx with h | h
      · exact traversal_marks s.root_ (transform_definitions s.definitions_) (some ∅)
          _ h m (Or.inl rfl)
      · exact traversal_marks s.root_ (transform_definitions s.definitions_) (some ∅)
          _ h m (Or.inr rfl)
    obtain ⟨e, hf, hmem⟩ := hmark
    rw [find_transform_definitions s.definitions_ hwf m] at hf
    cases hm : s.definitions_.find m with
    | none => simp [hm] at hf
    | some body_m =>
        simp only [hm, Option.map_some', Option.some.injEq] at hf
        refine ⟨body_m, rfl, hf ▸ hmem, ?_⟩
        intro hx'
        subst hx'
        have hr := reference_in_subtrees e n hmem
        rw [← hf, schema_references_with_name, flat_references] at hr
        exact hr

/-- Witness of C6 (amended): the root `Object[p : Reference(A), q : Reference(A)]`
over the definition `A ↦ Literal[u, v]`.  The traversal of the driver's tree is
the record, the substituted entry `Enum A [u, v]` and the name-only
`Reference(A)` of field `q`: the entry comes before the reference and is
substituted once. -/
theorem declared_once_witness :
    StdMap.wf [("A", ParsingType.Literal ["u", "v"])] ∧
    StdMap.find [("A", ParsingType.Literal ["u", "v"])] "A" = some (.Literal ["u", "v"]) ∧
    "A" ∈ schema_references (avro_schema
      ⟨.Object [("p", .Reference "A"), ("q", .Reference "A")],
       [("A", .Literal ["u", "v"])]⟩) ∧
    AvroType.Enum "A" ["u", "v"] ∈ subtrees (avro_schema
      ⟨.Object [("p", .Reference "A"), ("q", .Reference "A")],
       [("A", .Literal ["u", "v"])]⟩) ∧
    traversal (.Object [("p", .Reference "A"), ("q", .Reference "A")])
        (transform_definitions [("A", .Literal ["u", "v"])]) (some ∅) =
      [(.Record "" [("p", .Enum "A" ["u", "v"]), ("q", .Reference "A")], .translated),
       (.Enum "A" ["u", "v"], .substituted "A")] ++
        (.Reference "A", .translated) :: [] ∧
    (AvroType.Enum "A" ["u", "v"], Origin.substituted "A") ∈
      [(AvroType.Record "" [("p", .Enum "A" ["u", "v"]), ("q", .Reference "A")],
          Origin.translated),
       (AvroType.Enum "A" ["u", "v"], Origin.substituted "A")] ∧
    substitutions "A"
      (traversal (.Object [("p", .Reference "A"), ("q", .Reference "A")])
        (transform_definitions [("A", .Literal ["u", "v"])]) (some ∅)) = 1 := by
  have hwf : StdMap.wf [("A", ParsingType.Literal ["u", "v"])] := by
    simp [StdMap.wf, StdMap.keys]
  have hkey : StdMap.find [("A", ParsingType.Literal ["u", "v"])] "A" =
      some (.Literal ["u", "v"]) := by simp [StdMap.find]
  have href : "A" ∈ reference_names
      (.Object [("p", .Reference "A"), ("q", .Reference "A")]) := by
    simp [reference_names, reference_names_fields]
  have hsplit : traversal (.Object [("p", .Reference "A"), ("q", .Reference "A")])
        (transform_definitions [("A", .Literal ["u", "v"])]) (some ∅) =
      [(.Record "" [("p", .Enum "A" ["u", "v"]), ("q", .Reference "A")], .translated),
       (.Enum "A" ["u", "v"], .substituted "A")] ++
        (.Reference "A", .translated) :: [] := by
    simp [traversal, traversal_fields, transform_definitions, StdMap.assign, StdMap.find,
      type_to_avro_schema_type, record_loop, with_name, subtrees]
  have h := declared_once
    ⟨.Object [("p", .Reference "A"), ("q", .Reference "A")], [("A", .Literal ["u", "v"])]⟩
    "A" (.Literal ["u", "v"]) hwf hkey
  obtain ⟨_, hroot, _, _, horder, _, honce, _⟩ := h
  refine ⟨hwf, hkey, ?_, ?_, hsplit, ?_, (honce href).2⟩
  · simp [avro_schema, transform_definitions, StdMap.assign, StdMap.find,
      type_to_avro_schema_type, record_loop, with_name, schema_references,
      schema_references_fields]
  · simpa [type_to_avro_schema_type, with_name] using hroot href
  · exact horder _ _ hsplit

/-- C7, what the code does: the first integer branch lists all five integer
tags, so `Int32`, `Int64`, `UInt32`, `UInt64` and `Integer` are all translated
to `Int`, for every registry and set of known names; `Long` is never
produced for `Int64`, `UInt32` or `UInt64`. -/
theorem integer_tags_translate_to_int (definitions : StdMap AvroType)
    (seen : Option (Finset String)) :
    type_to_avro_schema_type .Int32 definitions seen = (.Int, seen) ∧
    type_to_avro_schema_type .Int64 definitions seen = (.Int, seen) ∧
    type_to_avro_schema_type .UInt32 definitions seen = (.Int, seen) ∧
    type_to_avro_schema_type .UInt64 definitions seen = (.Int, seen) ∧
    type_to_avro_schema_type .Integer definitions seen = (.Int, seen) ∧
    (type_to_avro_schema_type .Int64 definitions seen).1 ≠ .Long ∧
    (type_to_avro_schema_type .UInt32 definitions seen).1 ≠ .Long ∧
    (type_to_avro_schema_type .UInt64 definitions seen).1 ≠ .Long := by
  simp [type_to_avro_schema_type]

/-- C8. Optional shape: for every inner type, registry and set of known names,
`Optional(inner)` is translated to the union with exactly two members, the
translation of `inner` (under the same registry and set) first and `Null`
second, and the set is left as the translation of `inner` leaves it; in
particular `Optional(Int32)` gives `Union[Int, Null]`. -/
theorem optional_shape (inner : ParsingType) (definitions : StdMap AvroType)
    (seen : Option (Finset String)) :
    type_to_avro_schema_type (.Optional inner) definitions seen =
      (.Union [(type_to_avro_schema_type inner definitions seen).1, .Null],
       (type_to_avro_schema_type inner definitions seen).2) ∧
    type_to_avro_schema_type (.Optional .Int32) definitions seen =
      (.Union [.Int, .Null], seen) := by
  simp [type_to_avro_schema_type]

/-- C9. Termination: the translator is a total function.  For every type model
tree, every registry and every set of known names (null or not) it returns a
schema and a set, null exactly when the given one is; `transform_definitions`
returns a map for every definitions map and the driver returns a schema for
every source schema.  On the mutually referential definitions
`A ↦ Object[b : Reference(B)]`, `B ↦ Object[a : Reference(A)]` with the root
`Object[x : Reference(A), y : Reference(A), z : Reference(B)]` the driver
returns the finite tree shown. -/
theorem translation_terminates :
    (∀ (t : ParsingType) (definitions : StdMap AvroType) (seen : Option (Finset String)),
      ∃ out seen', type_to_avro_schema_type t definitions seen = (out, seen') ∧
        (seen' = none ↔ seen = none)) ∧
    (∀ definitions : StdMap ParsingType,
      ∃ registry, transform_definitions definitions = registry ∧
        registry.length ≤ definitions.length) ∧
    (∀ s : Definition, ∃ out seen',
      type_to_avro_schema_type s.root_ (transform_definitions s.definitions_) (some ∅) =
        (out, some seen') ∧ avro_schema s = out) ∧
    avro_schema
        ⟨.Object [("x", .Reference "A"), ("y", .Reference "A"), ("z", .Reference "B")],
         [("A", .Object [("b", .Reference "B")]), ("B", .Object [("a", .Reference "A")])]⟩ =
      .Record "" [("x", .Record "A" [("b", .Reference "B")]), ("y", .Reference "A"),
        ("z", .Record "B" [("a", .Reference "A")])] := by
  refine ⟨?_, ?_, ?_, ?_⟩
  · intro t definitions seen
    refine ⟨(type_to_avro_schema_type t definitions seen).1,
      (type_to_avro_schema_type t definitions seen).2, rfl, ?_⟩
    cases seen with
    | none => simp [null_known]
    | some s =>
        obtain ⟨s', h, _⟩ := known_after t definitions s
        simp [h]
  · intro definitions
    refine ⟨_, rfl, ?_⟩
    exact transform_definitions_length definitions
  · intro s
    obtain ⟨s', h, _⟩ := known_after s.root_ (transform_definitions s.definitions_) ∅
    exact ⟨_, s', Prod.ext rfl h, rfl⟩
  · simp [avro_schema, transform_definitions, StdMap.assign, StdMap.find,
      type_to_avro_schema_type, record_loop, with_name]

/-- C10. Registry construction is per definition and isolated: for a
well-formed definitions map, `transform_definitions` returns a map with the
same keys; the entry of each key `k` is the translation of its body against the
empty registry with a null set of known names, tagged with `k`; and the entry
of `k` is the same in every other well-formed definitions map that gives `k`
the same body. -/
theorem registry_isolated (definitions : StdMap ParsingType) (hwf : definitions.wf) :
    (transform_definitions definitions).keys = definitions.keys ∧
    (∀ k, (transform_definitions definitions).find k =
      (definitions.find k).map
        (fun v => with_name (type_to_avro_schema_type v [] none).1 k)) ∧
    (∀ (others : StdMap ParsingType) (k : String), others.wf →
      others.find k = definitions.find k →
      (transform_definitions others).find k =
        (transform_definitions definitions).find k) := by
  refine ⟨?_, ?_, ?_⟩
  · rw [transform_definitions_eq_map definitions hwf]
    exact keys_map_entries
      (fun k v => with_name (type_to_avro_schema_type v [] none).1 k) definitions
  · intro k
    exact find_transform_definitions definitions hwf k
  · intro others k hwf' hsame
    rw [find_transform_definitions others hwf' k,
      find_transform_definitions definitions hwf k, hsame]

/-- Witness of C10: the definitions `A ↦ Object[b : Reference(B)]` and
`B ↦ Int32`; the entry of `A` is `Record A [b : Reference(B)]`. -/
theorem registry_isolated_witness :
    StdMap.wf [("A", ParsingType.Object [("b", .Reference "B")]), ("B", .Int32)] ∧
    StdMap.keys (transform_definitions
        [("A", .Object [("b", .Reference "B")]), ("B", .Int32)]) = ["A", "B"] ∧
    StdMap.find (transform_definitions
        [("A", .Object [("b", .Reference "B")]), ("B", .Int32)]) "A" =
      some (.Record "A" [("b", .Reference "B")]) := by
  have hwf : StdMap.wf [("A", ParsingType.Object [("b", .Reference "B")]), ("B", .Int32)] := by
    simp [StdMap.wf, StdMap.keys]
  have h := registry_isolated
    [("A", .Object [("b", .Reference "B")]), ("B", .Int32)] hwf
  refine ⟨hwf, ?_, ?_⟩
  · rw [h.1]; simp [StdMap.keys]
  · rw [h.2.1 "A"]
    simp [StdMap.find, type_to_avro_schema_type, record_loop, with_name]

/-- C11. Object translation preserves fields: an object with the field list
`fs` is translated to a record with exactly as many fields, carrying the same
names in the same order; the field at the position of `(n, t)` is `n` with the
translation of `t` under the set of known names as the translation of the
fields before it leaves it. -/
theorem object_preserves_fields (fs : List (String × ParsingType))
    (definitions : StdMap AvroType) (seen : Option (Finset String)) :
    ∃ fields,
      type_to_avro_schema_type (.Object fs) definitions seen =
        (.Record "" fields, (record_loop fs definitions seen).2) ∧
      fields.length = fs.length ∧
      fields.map Prod.fst = fs.map Prod.fst ∧
      ∀ (pre : List (String × ParsingType)) (n : String) (t : ParsingType)
        (post : List (String × ParsingType)), fs = pre ++ (n, t) :: post →
        fields[pre.length]? =
          some (n, (type_to_avro_schema_type t definitions
            (type_to_avro_schema_type (.Object pre) definitions seen).2).1) := by
  refine ⟨(record_loop fs definitions seen).1, by simp [type_to_avro_schema_type],
    record_loop_length fs definitions seen, record_loop_names fs definitions seen, ?_⟩
  intro pre n t post hfs
  subst hfs
  have hlen := record_loop_length pre definitions seen
  rw [record_loop_append]
  simp only [record_loop, type_to_avro_schema_type]
  rw [List.getElem?_append_right (by omega)]
  simp [hlen]

/-- Witness of C11: the object `[p : Reference(X), q : Reference(X)]` under
the registry `X ↦ Long`; the second field is translated with `X` known. -/
theorem object_preserves_fields_witness :
    ∃ fields,
      type_to_avro_schema_type (.Object [("p", .Reference "X"), ("q", .Reference "X")])
          [("X", AvroType.Long)] (some ∅) =
        (.Record "" fields,
         (record_loop [("p", .Reference "X"), ("q", .Reference "X")]
           [("X", AvroType.Long)] (some ∅)).2) ∧
      fields[1]? = some ("q", AvroType.Reference "X") := by
  obtain ⟨fields, h, _, _, hat⟩ := object_preserves_fields
    [("p", .Reference "X"), ("q", .Reference "X")] [("X", AvroType.Long)] (some ∅)
  refine ⟨fields, h, ?_⟩
  have h1 := hat [("p", .Reference "X")] "q" (.Reference "X") [] rfl
  simpa [type_to_avro_schema_type, record_loop, StdMap.find] using h1

/-- C12. AnyOf translation keeps every alternative: a tagged union with the
alternatives `ts` is translated to a union with exactly as many members; the
member at the position of `t` is the translation of `t` under the set of known
names as the alternatives before it leave it; nothing is removed: when the
alternatives visit no `Reference`, the members are the translations of the
alternatives one by one, and the member of an alternative that visits no
`Reference` depends on that alternative alone, so equal alternatives give
equal, repeated members. -/
theorem any_of_keeps_alternatives (ts : List ParsingType)
    (definitions : StdMap AvroType) (seen : Option (Finset String)) :
    ∃ members,
      type_to_avro_schema_type (.AnyOf ts) definitions seen =
        (.Union members, (any_of_loop ts definitions seen).2) ∧
      members.length = ts.length ∧
      (∀ (pre : List ParsingType) (t : ParsingType) (post : List ParsingType),
        ts = pre ++ t :: post →
        members[pre.length]? =
          some (type_to_avro_schema_type t definitions
            (type_to_avro_schema_type (.AnyOf pre) definitions seen).2).1) ∧
      (∀ (pre : List ParsingType) (t : ParsingType) (post : List ParsingType),
        ts = pre ++ t :: post → reference_names t = [] →
        members[pre.length]? = some (type_to_avro_schema_type t [] none).1) ∧
      (reference_names_each ts = [] →
        members = ts.map (fun t => (type_to_avro_schema_type t definitions seen).1) ∧
        (any_of_loop ts definitions seen).2 = seen) := by
  have hpos : ∀ (pre : List ParsingType) (t : ParsingType) (post : List ParsingType),
      ts = pre ++ t :: post →
      (any_of_loop ts definitions seen).1[pre.length]? =
        some (type_to_avro_schema_type t definitions
          (type_to_avro_schema_type (.AnyOf pre) definitions seen).2).1 := by
    intro pre t post hts
    subst hts
    have hlen := any_of_loop_length pre definitions seen
    rw [any_of_loop_append]
    simp only [any_of_loop, type_to_avro_schema_type]
    rw [List.getElem?_append_right (by omega)]
    simp [hlen]
  refine ⟨(any_of_loop ts definitions seen).1, by simp [type_to_avro_schema_type],
    any_of_loop_length ts definitions seen, hpos, ?_, ?_⟩
  · intro pre t post hts hfree
    rw [hpos pre t post hts, reference_free t definitions _ hfree]
  · intro hfree
    rw [reference_free_each ts definitions seen hfree, any_of_loop_flat]
    refine ⟨?_, rfl⟩
    apply List.map_congr_left
    intro t ht
    have hnil : reference_names t = [] := by
      apply List.eq_nil_iff_forall_not_mem.mpr
      intro n hn
      have := reference_names_mem_each ts t ht n hn
      rw [hfree] at this
      simp at this
    rw [reference_free t definitions seen hnil]

/-- Witness of C12: the two equal alternatives of `AnyOf[String, String]` give
the two equal members of `Union[String, String]`. -/
theorem any_of_keeps_alternatives_witness :
    type_to_avro_schema_type (.AnyOf [.String, .String]) [] (some ∅) =
      (.Union [.String, .String], some ∅) := by
  obtain ⟨members, h, _, _, _, hfree⟩ :=
    any_of_keeps_alternatives [.String, .String] [] (some ∅)
  have h2 := hfree (by simp [reference_names_each, reference_names])
  rw [h, h2.1, h2.2]
  simp [type_to_avro_schema_type]

/-- C13. Literal translation: for every list of values, registry and set of
known names, `Literal(vs)` is translated to the enum whose symbol list is `vs`
itself, and the set is left unchanged; `Literal[A, B, C]` gives the enum with
the symbols `A`, `B`, `C` in that order. -/
theorem literal_translation (vs : List String) (definitions : StdMap AvroType)
    (seen : Option (Finset String)) :
    type_to_avro_schema_type (.Literal vs) definitions seen = (.Enum "" vs, seen) ∧
    type_to_avro_schema_type (.Literal ["A", "B", "C"]) definitions seen =
      (.Enum "" ["A", "B", "C"], seen) := by
  simp [type_to_avro_schema_type]

/-- C14. Tuple fallback: for every list of elements, registry and set of known
names, `Tuple(elements)` is translated to the record without fields and the
set is left unchanged, also when an element is a `Reference` to a defined
name; `Tuple[Int32, String]` gives the record without fields. -/
theorem tuple_fallback (elements : List ParsingType) (definitions : StdMap AvroType)
    (seen : Option (Finset String)) :
    type_to_avro_schema_type (.Tuple elements) definitions seen = (.Record "" [], seen) ∧
    type_to_avro_schema_type (.Tuple [.Int32, .String]) definitions seen =
      (.Record "" [], seen) ∧
    type_to_avro_schema_type (.Tuple [.Reference "X"]) [("X", AvroType.Long)] (some ∅) =
      (.Record "" [], some ∅) := by
  simp [type_to_avro_schema_type]

/-- C15. Metadata wrappers are transparent: for every inner type, constraint
metadata, documentation text, registry and set of known names,
`Validated(inner, c)` and `Description(inner, d)` are translated exactly as
`inner`, with the same resulting set. -/
theorem metadata_transparent (inner : ParsingType) (c d : String)
    (definitions : StdMap AvroType) (seen : Option (Finset String)) :
    type_to_avro_schema_type (.Validated inner c) definitions seen =
      type_to_avro_schema_type inner definitions seen ∧
    type_to_avro_schema_type (.Description d inner) definitions seen =
      type_to_avro_schema_type inner definitions seen := by
  simp [type_to_avro_schema_type]

/-- C16. Fixed-size and variable-size arrays collapse: for every item type,
declared size, registry and set of known names, `FixedSizeTypedArray(n, inner)`
and `TypedArray(inner)` are both translated to the array whose items are the
translation of `inner`, with the set as that translation leaves it. -/
theorem arrays_collapse (n : Nat) (inner : ParsingType)
    (definitions : StdMap AvroType) (seen : Option (Finset String)) :
    type_to_avro_schema_type (.FixedSizeTypedArray n inner) definitions seen =
      type_to_avro_schema_type (.TypedArray inner) definitions seen ∧
    type_to_avro_schema_type (.TypedArray inner) definitions seen =
      (.Array (type_to_avro_schema_type inner definitions seen).1,
       (type_to_avro_schema_type inner definitions seen).2) := by
  simp [type_to_avro_schema_type]

/-- C17, what the code does: `read` never reads the bytes into the value it
parses, so it returns the same result for every two buffers; for two values
`v₁`, `v₂` with the encodings `b₁`, `b₂`, either the values are equal or one of
the two calls does not return the value its bytes encode. -/
theorem read_round_trip_fails {Handle Iface Value T : Type}
    (svc : Services Handle Iface Value T) (schema : Schema Iface)
    (v₁ v₂ : T) (b₁ b₂ : List Nat) :
    read svc b₁ b₁.length schema = read svc b₂ b₂.length schema ∧
    (v₁ = v₂ ∨ read svc b₁ b₁.length schema ≠ .ok v₁ ∨
      read svc b₂ b₂.length schema ≠ .ok v₂) := by
  refine ⟨rfl, ?_⟩
  by_cases h₁ : read svc b₁ b₁.length schema = .ok v₁
  · by_cases h₂ : read svc b₂ b₂.length schema = .ok v₂
    · left
      have h : (Except.ok v₁ : Except String T) = Except.ok v₂ := by
        rw [← h₁, ← h₂]; rfl
      exact Except.ok.inj h
    · exact Or.inr (Or.inr h₂)
  · exact Or.inr (Or.inl h₁)

/-- C18, as stated, fails: `Reference(X)` translated against the empty
registry is the name-only node `Reference(X)`, with the set of known names
unchanged, and the driver returns that node as the schema; no failure is
reported. -/
theorem unknown_reference_counterexample :
    type_to_avro_schema_type (.Reference "X") [] (some ∅) = (.Reference "X", some ∅) ∧
    avro_schema ⟨.Reference "X", []⟩ = .Reference "X" := by
  simp [avro_schema, transform_definitions, type_to_avro_schema_type, StdMap.find]

/-- C18, amended.  Translating `Reference(name)` for a name without an entry
in the registry returns the name-only node `Reference(name)` and leaves the set
of known names unchanged, whether the set is null or not. -/
theorem unknown_reference (name : String) (definitions : StdMap AvroType)
    (seen : Option (Finset String)) (h : definitions.find name = none) :
    type_to_avro_schema_type (.Reference name) definitions seen =
      (.Reference name, seen) := by
  cases seen with
  | none => simp [type_to_avro_schema_type]
  | some s =>
      by_cases hs : name ∈ s <;> simp [type_to_avro_schema_type, hs, h]

/-- Witness of C18 (amended): the name `Y` under the registry `X ↦ Long`. -/
theorem unknown_reference_witness :
    StdMap.find [("X", AvroType.Long)] "Y" = none ∧
    type_to_avro_schema_type (.Reference "Y") [("X", AvroType.Long)] (some {"X"}) =
      (.Reference "Y", some {"X"}) :=
  ⟨by simp [StdMap.find],
   unknown_reference "Y" [("X", AvroType.Long)] (some {"X"}) (by simp [StdMap.find])⟩

/-- C19. Invariant of the set of known names: for every type model tree,
registry and non-null set `S`, the set `S'` after the translation contains `S`,
and every name of `S'` that is not in `S` is a key of the registry and the
name of a `Reference` node of the tree outside any `Tuple`. -/
theorem seen_set_invariant (t : ParsingType) (definitions : StdMap AvroType)
    (S : Finset String) :
    ∃ S', (type_to_avro_schema_type t definitions (some S)).2 = some S' ∧
      S ⊆ S' ∧
      ∀ n, n ∈ S' → n ∉ S → n ∈ definitions.keys ∧ n ∈ reference_names t := by
  obtain ⟨S', h, hsub, hnew, _⟩ := known_after t definitions S
  refine ⟨S', h, hsub, ?_⟩
  intro n hn hn'
  obtain ⟨hname, e, he, _⟩ := hnew n hn hn'
  refine ⟨?_, hname⟩
  by_contra hkey
  rw [(find_eq_none_iff definitions n).mpr hkey] at he
  simp at he

/-- Witness of C19: `Optional(Reference(X))` under the registry `X ↦ Long`,
started with the set `{W}`, ends with `{X, W}`. -/
theorem seen_set_invariant_witness :
    (type_to_avro_schema_type (.Optional (.Reference "X")) [("X", AvroType.Long)]
        (some {"W"})).2 = some {"X", "W"} ∧
    ∃ S', (type_to_avro_schema_type (.Optional (.Reference "X")) [("X", AvroType.Long)]
        (some {"W"})).2 = some S' ∧ ({"W"} : Finset String) ⊆ S' ∧
      ∀ n, n ∈ S' → n ∉ ({"W"} : Finset String) →
        n ∈ StdMap.keys [("X", AvroType.Long)] ∧
        n ∈ reference_names (.Optional (.Reference "X")) :=
  ⟨by simp [type_to_avro_schema_type, StdMap.find],
   seen_set_invariant (.Optional (.Reference "X")) [("X", AvroType.Long)] {"W"}⟩

/-- C20. The decode entry point ignores its byte buffer: the memory reader
opened over the bytes is only freed, the value that is parsed is the new
generic value made from the schema; for every schema and every two buffers of
any sizes `read` returns the same result, the result of the walker on that new
value. -/
theorem read_ignores_bytes {Handle Iface Value T : Type}
    (svc : Services Handle Iface Value T) (schema : Schema Iface)
    (b₁ b₂ : List Nat) (size₁ size₂ : Nat) :
    read svc b₁ size₁ schema = read svc b₂ size₂ schema ∧
    read svc b₁ size₁ schema =
      svc.Parser_read (svc.avro_generic_value_new schema.iface) := by
  exact ⟨rfl, rfl⟩

end RflAvro
